import Mathlib

/-!
# Verification of the `gc` crate's core (mark-and-sweep collector with handle scopes)

Shallow embedding of `src/alloc.rs`, `src/handle.rs` and `src/lib.rs`.

Modelling conventions:
* A heap cell address is a `Nat` identifier (`CellId`); a nullable cell
  pointer (`*mut GcCell<Data>`) is `Option CellId` with `none` for null.
* The cell header (`GcHeader`) carries `prev` (back link), the `mark` bit,
  and — standing for the payload reached through the vtable's trace thunk —
  the list `fields` of cell ids the payload's `Trace` impl visits.
* The allocation-chain memory is an association list `Heap` from `CellId`
  to `Cell`.  `GcCell::set_mark` / `set_prev` / `free` become pure updates.
* Unbounded `while`/recursion (`sweep`'s chain walk, `GcCell::trace`) is
  modelled with an explicit fuel argument; theorems show the fuel chosen
  by the wrappers is large enough under the well-formedness invariants.
-/

namespace Gc

/-- Cell identifiers: abstract addresses of `GcCell` allocations. -/
abbrev CellId := Nat

/-- The header data of a `GcCell` relevant to collection:
`prev` is the back link to the previously allocated cell (`none` = null),
`marked` is the mark bit, and `fields` records the cell ids that the
payload's trace thunk (`vt.trace`) visits — the interior references. -/
structure Cell where
  prev : Option CellId
  marked : Bool
  fields : List CellId
deriving DecidableEq, Repr

/-- The heap: a finite association list from cell id to cell contents.
`GcCell::free` removes the entry (and logs the destructor run). -/
abbrev Heap := List (CellId × Cell)

/-- Read a cell (pointer dereference); `none` when the id is unallocated. -/
def lookupCell (h : Heap) (c : CellId) : Option Cell :=
  match h with
  | [] => none
  | (i, cl) :: t => if i = c then some cl else lookupCell t c

/-- `GcCell::is_marked`. Unallocated ids read as unmarked. -/
def marks (h : Heap) (c : CellId) : Bool :=
  match lookupCell h c with
  | some cl => cl.marked
  | none => false

/-- `GcCell::set_mark`: update the mark bit of cell `c`. -/
def setMark (h : Heap) (c : CellId) (v : Bool) : Heap :=
  match h with
  | [] => []
  | (i, cl) :: t =>
    (if i = c then (i, { cl with marked := v }) else (i, cl)) :: setMark t c v

/-- `GcCell::set_prev`: update the back link of cell `c`. -/
def setPrev (h : Heap) (c : CellId) (p : Option CellId) : Heap :=
  match h with
  | [] => []
  | (i, cl) :: t =>
    (if i = c then (i, { cl with prev := p }) else (i, cl)) :: setPrev t c p

/-- `GcCell::free`: deallocate the cell (its destructor runs). -/
def freeCell (h : Heap) (c : CellId) : Heap :=
  match h with
  | [] => []
  | (i, cl) :: t => if i = c then freeCell t c else (i, cl) :: freeCell t c

/-- The ids allocated in the heap. -/
def hkeys (h : Heap) : List CellId := h.map Prod.fst

/-- `chainWF h cur l`: starting from the pointer `cur`, following the
`prev` links visits exactly the cells listed in `l` (newest first) and
then reaches null.  This is the shape of the allocation chain. -/
def chainWF (h : Heap) : Option CellId → List CellId → Bool
  | none, [] => true
  | some c, i :: l =>
    c = i &&
      (match lookupCell h c with
       | some cl => chainWF h cl.prev l
       | none => false)
  | none, _ :: _ => false
  | some _, [] => false

/-- One execution of the `while !current.is_null()` loop of `sweep`
(`src/lib.rs`), with fuel bounding the number of iterations.  State:
the heap, the `current` cursor, `last_live`, `new_head`, and the log of
freed cells (destructor runs) in order.  If the cursor dangles (a broken
chain, impossible under `chainWF`) the loop stops. -/
def sweepLoop : Nat → Heap → Option CellId → Option CellId → Option CellId →
    List CellId → Heap × Option CellId × List CellId
  | 0, h, _, _, newHead, freed => (h, newHead, freed)
  | _ + 1, h, none, _, newHead, freed => (h, newHead, freed)
  | fuel + 1, h, some c, lastLive, newHead, freed =>
    match lookupCell h c with
    | none => (h, newHead, freed)
    | some cl =>
      if cl.marked then
        sweepLoop fuel (setMark h c false) cl.prev (some c)
          (match newHead with | none => some c | some x => some x) freed
      else
        let h₁ := match lastLive with
          | none => h
          | some ll => setPrev h ll cl.prev
        sweepLoop fuel (freeCell h₁ c) cl.prev lastLive newHead (freed ++ [c])

/-- `sweep` (`src/lib.rs` 122–193): walk the chain from the allocator
head, free unmarked cells (splicing `last_live.prev`), unmark survivors,
and return the new allocator head (`new_head`, null if all died).
Returns the final heap, new head, and the destructor log. -/
def sweep (h : Heap) (head : Option CellId) : Heap × Option CellId × List CellId :=
  let r := sweepLoop (h.length + 1) h head none none []
  (r.1, (match r.2.1 with | some p => some p | none => none), r.2.2)

/-- Marked cells of a chain fragment, in chain order (the survivors). -/
def liveIds (h : Heap) (l : List CellId) : List CellId :=
  l.filter (fun i => marks h i)

/-- Unmarked cells of a chain fragment, in chain order (the doomed). -/
def deadIds (h : Heap) (l : List CellId) : List CellId :=
  l.filter (fun i => !(marks h i))

/-- What `sweep` guarantees about its result `r`, relative to the chain
`l` hanging from the initial cursor, the incoming `last_live` /
`new_head` registers and the destructor log `freed` accumulated so far:
the dead cells are freed in chain order, the new head becomes the
newest survivor, untouched cells keep their contents, the previous
live cell is spliced onto the first survivor, the survivors form a
well-linked chain in their original order with cleared marks and
untouched payloads, dead cells are gone, and the key sequence loses
exactly the dead cells. -/
def SweepPost (h : Heap) (l : List CellId) (lastLive newHead : Option CellId)
    (freed : List CellId) (r : Heap × Option CellId × List CellId) : Prop :=
  r.2.2 = freed ++ deadIds h l ∧
  r.2.1 = (match newHead with
    | some x => some x
    | none => (liveIds h l).head?) ∧
  (∀ x, x ∉ l → lastLive ≠ some x → lookupCell r.1 x = lookupCell h x) ∧
  (∀ j, lastLive = some j →
    lookupCell r.1 j =
      (lookupCell h j).map (fun cl => { cl with prev := (liveIds h l).head? })) ∧
  chainWF r.1 (liveIds h l).head? (liveIds h l) = true ∧
  (∀ x ∈ liveIds h l, ∃ cl cl', lookupCell h x = some cl ∧
    lookupCell r.1 x = some cl' ∧ cl'.fields = cl.fields ∧ cl'.marked = false) ∧
  (∀ x ∈ deadIds h l, lookupCell r.1 x = none) ∧
  hkeys r.1 = (hkeys h).filter (fun x => !decide (x ∈ deadIds h l))

/-- Setting the mark bit of each cell in `ms`, in order (a bookkeeping
view of what mark-and-trace does to the heap). -/
def markList (h : Heap) (ms : List CellId) : Heap :=
  ms.foldl (fun hh x => setMark hh x true) h

/-- Folding a mark-and-trace step over the interior references reported
by a trace thunk, threading the heap and concatenating dispatch logs. -/
def foldTrace (step : Heap → CellId → Heap × List CellId) :
    Heap → List CellId → Heap × List CellId
  | h, [] => (h, [])
  | h, f :: fs =>
    let r₁ := step h f
    let r₂ := foldTrace step r₁.1 fs
    (r₂.1, r₁.2 ++ r₂.2)

/-- `GcCell::trace` (`src/alloc.rs` 97–114): if already marked, return
immediately (cycle cutoff) without dispatching the trace thunk;
otherwise set the mark bit, then dispatch the cell's trace thunk, which
calls mark-and-trace on every interior reference (`cl.fields`).  An
unallocated id is a no-op (the real code would be reading freed
memory).  The recursion of the source has no bound; the `fuel`
argument makes it total, and the theorems show any fuel beyond the
number of unmarked cells gives the same result.  The second component
logs the cells whose trace thunk was dispatched, in dispatch order. -/
def traceCell : Nat → Heap → CellId → Heap × List CellId
  | 0, h, _ => (h, [])
  | fuel + 1, h, c =>
    match lookupCell h c with
    | none => (h, [])
    | some cl =>
      if cl.marked then (h, [])
      else
        let r := foldTrace (traceCell fuel) (setMark h c true) cl.fields
        (r.1, c :: r.2)

/-- The number of unmarked heap entries: an upper bound on the
recursion depth of mark-and-trace. -/
def unmarkedCount : Heap → Nat
  | [] => 0
  | (_, cl) :: t => if cl.marked then unmarkedCount t else unmarkedCount t + 1

/-- The loop body of the mark phase (`src/lib.rs` `mark`, 99–111) over
already-enumerated root slots: null handles are skipped, other slots
are passed to `GcCell::trace`.  Threads the heap and logs dispatches. -/
def markRootsAux (fuel : Nat) : Heap → List (Option CellId) → Heap × List CellId
  | h, [] => (h, [])
  | h, none :: rs => markRootsAux fuel h rs
  | h, some c :: rs =>
    let t := traceCell fuel h c
    let r := markRootsAux fuel t.1 rs
    (r.1, t.2 ++ r.2)

/-- The mark phase on a root slot list, with fuel ample for any heap
(`h.length + 2` exceeds the unmarked-cell count at every point). -/
def markRoots (h : Heap) (roots : List (Option CellId)) : Heap × List CellId :=
  markRootsAux (h.length + 2) h roots

/-- Block capacity: `4096 / size_of::<OpaquePtr>()` with 8-byte
pointers (`src/handle.rs` 46). -/
def BLOCK_SIZE : Nat := 4096 / 8

/-- A handle block: a `BLOCK_SIZE` array of nullable cell pointers,
allocated zeroed (`[null_mut(); BLOCK_SIZE]`). -/
abbrev Block := List (Option CellId)

/-- A bump position: block index plus an offset into that block.  The
source's `Bump` stores a raw pointer; blocks are boxed with disjoint
stable addresses, so a slot address is faithfully the (block, offset)
pair.  The null pointer of `Bump::default()` is rendered as offset 0
(it is only used in comparisons on which both renderings agree, see
`scopeIterEnd`). -/
structure Bump where
  index : Nat
  ptr : Nat
deriving DecidableEq, Repr

/-- `ScopeData` (`src/handle.rs` 125–150).  `limit` is a raw pointer
one past some block's last slot; it is modelled as the (block, offset)
pair it was computed from by `alloc_block`. -/
structure ScopeData where
  next : Bump
  tombstone : Bump
  limit : Bump
  level : Nat
  blocks : List Block
deriving DecidableEq, Repr

/-- `ScopeData::alloc_block` (`src/handle.rs` 199–215): box a zeroed
block, point `next` at its start and `limit` at its end, push it. -/
def allocBlock (d : ScopeData) : ScopeData :=
  { d with
    next := ⟨d.blocks.length, 0⟩,
    limit := ⟨d.blocks.length, BLOCK_SIZE⟩,
    blocks := d.blocks ++ [List.replicate BLOCK_SIZE none] }

/-- `ScopeData::new` (`src/handle.rs` 152–166): defaulted fields, then
one block is allocated (invariant: always at least one block). -/
def scopeDataNew : ScopeData :=
  allocBlock
    { next := ⟨0, 0⟩, tombstone := ⟨0, 0⟩, limit := ⟨0, 0⟩,
      level := 0, blocks := [] }

/-- `ScopeData::alloc_handle` (`src/handle.rs` 185–197): allocate a new
block if `next.ptr == limit` (raw-pointer equality — as pairs, `next =
limit`), then hand out the slot at `next` and bump the offset. -/
def alloc_handle (d : ScopeData) : ScopeData × Bump :=
  let d₁ := if d.next = d.limit then allocBlock d else d
  ({ d₁ with next := ⟨d₁.next.index, d₁.next.ptr + 1⟩ }, d₁.next)

/-- Write a cell pointer into a handle slot (`*slot = ptr`).  A write
at an offset outside the block's bounds — possible in the source after
the `limit` desynchronisation, see C4 — is dropped by `List.set`. -/
def writeSlot (d : ScopeData) (s : Bump) (v : Option CellId) : ScopeData :=
  { d with
    blocks := d.blocks.set s.index ((d.blocks.getD s.index []).set s.ptr v) }

/-- Read a handle slot (`*slot`); the model yields null for a read
outside the allocated blocks (the iterator's read at a block limit is
such an out-of-bounds read). -/
def readSlot (d : ScopeData) (index off : Nat) : Option CellId :=
  (d.blocks.getD index []).getD off none

/-- `Local::alloc` (`src/handle.rs` 502–512): take a slot from the
scope data and store the cell pointer in it. -/
def localAlloc (d : ScopeData) (ptr : Option CellId) : ScopeData × Bump :=
  let r := alloc_handle d
  (writeSlot r.1 r.2 ptr, r.2)

/-- A `Scope` (`src/handle.rs` 266–275): the saved `next` bump and the
recorded nesting level. -/
structure Scope where
  prevNext : Bump
  level : Nat
deriving DecidableEq, Repr

/-- `Scope::new_raw` (`src/handle.rs` 282–296): record `next` and the
current level, increment the level. -/
def scopeNew (d : ScopeData) : ScopeData × Scope :=
  ({ d with level := d.level + 1 }, ⟨d.next, d.level⟩)

/-- `Drop for Scope` (`src/handle.rs` 313–333): store the high-water
mark in `tombstone`, restore `next` (but not `limit`), decrement
`level`; the `assert_eq!` on the level (stack order) is modelled by
`Option` (`none` = the assertion fails and the process aborts). -/
def scopeDrop (sc : Scope) (d : ScopeData) : Option ScopeData :=
  let d₁ :=
    { d with tombstone := d.next, next := sc.prevNext, level := d.level - 1 }
  if d₁.level = sc.level then some d₁ else none

/-- `Scope::is_active` (`src/handle.rs` 304–311). -/
def isActive (sc : Scope) (d : ScopeData) : Bool := d.level = sc.level + 1

/-- The `end` pointer of `ScopeData::iter` (`src/handle.rs` 168–183):
compare the tombstone and next block indices; on a tie take the larger
offset (`cmp::max` of the two raw pointers, which lie in one block; the
null tombstone of a fresh `ScopeData` renders as offset 0 and compares
below or equal to any slot address of block 0, so the max agrees). -/
def scopeIterEnd (d : ScopeData) : Nat × Nat :=
  match compare d.tombstone.index d.next.index with
  | Ordering.eq => (d.next.index, max d.tombstone.ptr d.next.ptr)
  | Ordering.gt => (d.tombstone.index, d.tombstone.ptr)
  | Ordering.lt => (d.next.index, d.next.ptr)

/-- `ScopeDataIter::next` (`src/handle.rs` 242–264), iterated: from the
cursor position (block `i`, offset `off`): stop when the cursor equals
`end`; at the block limit move to the next block and yield its slot 0;
otherwise advance the cursor first and then read the slot it points at
(the source reads *after* advancing).  Yields (position, value) pairs;
fuel cuts the (in the source non-terminating or out-of-bounds) runs on
states whose `end` is unreachable. -/
def iterRun (d : ScopeData) : Nat → Nat × Nat → List ((Nat × Nat) × Option CellId)
  | 0, _ => []
  | fuel + 1, pos =>
    if pos = scopeIterEnd d then []
    else if pos.2 = BLOCK_SIZE then
      ((pos.1 + 1, 0), readSlot d (pos.1 + 1) 0) :: iterRun d fuel (pos.1 + 1, 0)
    else
      ((pos.1, pos.2 + 1), readSlot d pos.1 (pos.2 + 1)) ::
        iterRun d fuel (pos.1, pos.2 + 1)

/-- The full iteration of `ScopeData::iter`, starting like the source
at block 0, slot 0, with ample fuel. -/
def scopeIter (d : ScopeData) : List ((Nat × Nat) × Option CellId) :=
  iterRun d (((scopeIterEnd d).1 + 1) * (BLOCK_SIZE + 2)) (0, 0)

/-- The slot positions the mark phase's root enumeration visits. -/
def visitedPositions (d : ScopeData) : List (Nat × Nat) :=
  (scopeIter d).map Prod.fst

/-- The root slot values the mark phase reads, in visit order. -/
def rootValues (d : ScopeData) : List (Option CellId) :=
  (scopeIter d).map Prod.snd

/-- The effective live prefix of handle slots as described by the
spec's root-enumeration bounds (§4.2): every slot of the blocks before
the end block, then the slots of the end block up to the end offset,
in allocation order. -/
def livePrefix (d : ScopeData) : List (Nat × Nat) :=
  ((List.range (scopeIterEnd d).1).flatMap
    (fun i => (List.range BLOCK_SIZE).map (fun off => (i, off)))) ++
    (List.range (scopeIterEnd d).2).map (fun off => ((scopeIterEnd d).1, off))

/-- `ScopeData::free_unused_blocks` (`src/handle.rs` 217–222):
`blocks.drain(last_used_block + 1..)` with `last_used_block =
max(tombstone.index, next.index)`.  `Vec::drain` panics when the range
start exceeds the vector length; the model returns `none` there. -/
def free_unused_blocks (d : ScopeData) : Option ScopeData :=
  if max d.tombstone.index d.next.index + 1 ≤ d.blocks.length then
    some { d with blocks := d.blocks.take (max d.tombstone.index d.next.index + 1) }
  else none

/-- An `EscapeScope` (`src/handle.rs` 335–339): the inner scope, the
reserved parent slot, and the one-shot flag. -/
structure EscapeScopeM where
  scope : Scope
  localSlot : Bump
  escaped : Bool
deriving DecidableEq, Repr

/-- `EscapeScope::new` (`src/handle.rs` 341–357): reserve a slot (a
null `Local`) in the parent *before* constructing the child scope. -/
def escapeScopeNew (d : ScopeData) : ScopeData × EscapeScopeM :=
  let r := localAlloc d none
  let p := scopeNew r.1
  (p.1, ⟨p.2, r.2, false⟩)

/-- `EscapeScope::escape` (`src/handle.rs` 359–371): assert the scope
has not escaped yet (`none` = the `assert!` fires, fatally), mark it
escaped, overwrite the reserved parent slot with the value's cell
pointer; the returned local is the reserved slot itself. -/
def escape (es : EscapeScopeM) (d : ScopeData) (valuePtr : Option CellId) :
    Option (EscapeScopeM × ScopeData × Bump) :=
  if es.escaped then none
  else
    some ({ es with escaped := true }, writeSlot d es.localSlot valuePtr,
      es.localSlot)

/-- The collector-facing state: scope data, cell heap, allocator head
and the stress flag (`Gc` of `src/lib.rs` plus `Allocator`). -/
structure GcState where
  scope : ScopeData
  heap : Heap
  head : Option CellId
  stress : Bool
deriving DecidableEq, Repr

/-- A fresh cell id (the allocator returns a fresh heap address). -/
def freshId (h : Heap) : CellId := (hkeys h).foldr max 0 + 1

/-- `Allocator::alloc` (`src/alloc.rs` 26–41): box a new cell with
`prev` = the current head, mark bit clear, and the value's interior
references; move the head to it. -/
def allocatorAlloc (st : GcState) (fields : List CellId) : GcState × CellId :=
  ({ st with
      heap := (freshId st.heap, ⟨st.head, false, fields⟩) :: st.heap,
      head := some (freshId st.heap) },
    freshId st.heap)

/-- `mark` (`src/lib.rs` 99–111): enumerate the scope data's root
slots, skip null handles, `GcCell::trace` the rest. -/
def markPhase (d : ScopeData) (h : Heap) : Heap × List CellId :=
  markRoots h (rootValues d)

/-- `gc` (`src/lib.rs` 89–97): mark, then sweep, then free unused
blocks.  Returns the new state and the sweep's destructor log; `none`
when `free_unused_blocks` panics. -/
def gcRun (st : GcState) : Option (GcState × List CellId) :=
  let m := markPhase st.scope st.heap
  let s := sweep m.1 st.head
  match free_unused_blocks st.scope with
  | some d => some ({ st with scope := d, heap := s.1, head := s.2.1 }, s.2.2)
  | none => none

/-- The free function `alloc` (`src/handle.rs` 387–402) with a `Scope`
parent: under stress, run a full collection first; then
`assert!(scope.is_active())` — `none` models the panic "alloc outside
of current handle scope"; then allocate the cell. -/
def allocViaScope (sc : Scope) (st : GcState) (fields : List CellId) :
    Option (GcState × CellId) :=
  match (if st.stress then gcRun st else some (st, [])) with
  | none => none
  | some (st₁, _) =>
    if isActive sc st₁.scope then some (allocatorAlloc st₁ fields)
    else none

/-- The free function `alloc` (`src/handle.rs` 387–402) with the
top-level `Gc` as parent: `ParentScope for Gc` (`src/handle.rs`
658–671) returns `false` from `is_active`, so the assert always
fires. -/
def allocViaGc (st : GcState) (fields : List CellId) : Option (GcState × CellId) :=
  match (if st.stress then gcRun st else some (st, [])) with
  | none => none
  | some (st₁, _) =>
    if (false : Bool) then some (allocatorAlloc st₁ fields)
    else none

/-- `LocalMutOpt::new` with the `Gc` as parent and value `None`
(`src/handle.rs` 598–606): the `None` arm never calls `alloc` — no
heap cell, no stress collection, no activity assert; it only stores a
null pointer in a fresh handle slot. -/
def localMutOptNewGcNone (st : GcState) : GcState × Bump :=
  let r := localAlloc st.scope none
  ({ st with scope := r.1 }, r.2)

/-- `n` consecutive handle allocations (iterated `Local::alloc`, the
loop of the crate's `tombstone_next_block` test). -/
def allocN : ScopeData → Nat → ScopeData
  | d, 0 => d
  | d, n + 1 => allocN (localAlloc d (some 2)).1 n

/-- The `tombstone_next_block` scenario of the crate's test suite: an
outer scope holding one handle, an inner scope that allocates
`BLOCK_SIZE` handles (filling block 0 and spilling one slot into a
fresh block 1), then the inner scope is popped. -/
def exC4 : Option ScopeData :=
  let d2 := (localAlloc (scopeNew scopeDataNew).1 (some 1)).1
  let p := scopeNew d2
  scopeDrop p.2 (allocN p.1 BLOCK_SIZE)

/-- The scope data after the `tombstone_simple` scenario: an outer
scope with no handles, an inner scope that allocated one handle to
cell 1 into slot (0,0), then the inner scope was popped (tombstone one
past the popped slot, `next` back at the start). -/
def exC3 : ScopeData :=
  { next := ⟨0, 0⟩, tombstone := ⟨0, 1⟩, limit := ⟨0, BLOCK_SIZE⟩, level := 1,
    blocks := [(List.replicate BLOCK_SIZE none).set 0 (some 1)] }

/-- The bump/limit/block invariant of a scope data that has not gone
through the `limit` desynchronisation of C4: `limit` is one past the
last slot of the last block, `next` points into that block (at most at
its end), the tombstone's block exists, and every block has
`BLOCK_SIZE` slots.  `ScopeData::new` establishes it; `alloc_handle`
preserves it. -/
def ScopeWF (d : ScopeData) : Bool :=
  (d.blocks.length = d.limit.index + 1 && d.limit.ptr = BLOCK_SIZE) &&
  (d.next.index = d.limit.index && d.next.ptr ≤ BLOCK_SIZE) &&
  (d.tombstone.index ≤ d.limit.index && d.blocks.all (fun b => b.length = BLOCK_SIZE))

/-- A state with one open handle scope (level 1) and an empty heap. -/
def exC7 : GcState :=
  { scope := { scopeDataNew with level := 1 }, heap := [], head := none,
    stress := false }

/-- The `Scope` whose recorded level makes it the innermost scope of
`exC7` (level 0, so `level + 1` matches the data's level 1). -/
def exC7sc : Scope := ⟨⟨0, 0⟩, 0⟩

/-- A stressed state with a fresh scope data and a one-cell heap. -/
def exC10 : GcState :=
  { scope := scopeDataNew, heap := [(1, ⟨none, false, []⟩)], head := some 1,
    stress := true }

/-- Reachability along trace edges: `ReachFrom h S a c` holds when `c`
can be reached from `a` by repeatedly following the interior references
(`fields`) of cells, every dereferenced cell lying in `S` (for the
identity `S` drop the bound; the bound lets a reachability fact survive
the deallocation of cells outside `S`). -/
inductive ReachFrom (h : Heap) (S : List CellId) : CellId → CellId → Prop
  | refl (c : CellId) : ReachFrom h S c c
  | step (a b c : CellId) (cl : Cell) : ReachFrom h S a b → b ∈ S →
      lookupCell h b = some cl → c ∈ cl.fields → ReachFrom h S a c

/-- A scope data with one handle in slot (0,1) — a slot the root
enumeration visits even under the C1 off-by-one — holding cell 1. -/
def exC8scope : ScopeData :=
  { next := ⟨0, 2⟩, tombstone := ⟨0, 0⟩, limit := ⟨0, BLOCK_SIZE⟩, level := 1,
    blocks := [(List.replicate BLOCK_SIZE none).set 1 (some 1)] }

/-- A state whose single heap cell 1 is rooted by the handle of
`exC8scope`. -/
def exC8 : GcState :=
  { scope := exC8scope, heap := [(1, ⟨none, false, []⟩)], head := some 1,
    stress := false }

theorem lookup_setMark_self (h : Heap) (c : CellId) (v : Bool) :
    lookupCell (setMark h c v) c =
      (lookupCell h c).map (fun cl => { cl with marked := v }) := by
  induction h with
  | nil => rfl
  | cons e t ih =>
    obtain ⟨i, cl⟩ := e
    simp only [setMark]
    by_cases hc : i = c
    · rw [if_pos hc]
      simp only [lookupCell]
      rw [if_pos hc, if_pos hc]
      rfl
    · rw [if_neg hc]
      simp only [lookupCell]
      rw [if_neg hc, if_neg hc]
      exact ih

theorem lookup_setMark_ne (h : Heap) (c x : CellId) (v : Bool) (hx : x ≠ c) :
    lookupCell (setMark h c v) x = lookupCell h x := by
  induction h with
  | nil => rfl
  | cons e t ih =>
    obtain ⟨i, cl⟩ := e
    simp only [setMark]
    by_cases hc : i = c
    · have hix : ¬ i = x := fun hh => hx (hh ▸ hc)
      rw [if_pos hc]
      simp only [lookupCell]
      rw [if_neg hix, if_neg hix]
      exact ih
    · rw [if_neg hc]
      simp only [lookupCell]
      by_cases hix : i = x
      · rw [if_pos hix, if_pos hix]
      · rw [if_neg hix, if_neg hix]
        exact ih

theorem lookup_setPrev_self (h : Heap) (c : CellId) (p : Option CellId) :
    lookupCell (setPrev h c p) c =
      (lookupCell h c).map (fun cl => { cl with prev := p }) := by
  induction h with
  | nil => rfl
  | cons e t ih =>
    obtain ⟨i, cl⟩ := e
    simp only [setPrev]
    by_cases hc : i = c
    · rw [if_pos hc]
      simp only [lookupCell]
      rw [if_pos hc, if_pos hc]
      rfl
    · rw [if_neg hc]
      simp only [lookupCell]
      rw [if_neg hc, if_neg hc]
      exact ih

theorem lookup_setPrev_ne (h : Heap) (c x : CellId) (p : Option CellId) (hx : x ≠ c) :
    lookupCell (setPrev h c p) x = lookupCell h x := by
  induction h with
  | nil => rfl
  | cons e t ih =>
    obtain ⟨i, cl⟩ := e
    simp only [setPrev]
    by_cases hc : i = c
    · have hix : ¬ i = x := fun hh => hx (hh ▸ hc)
      rw [if_pos hc]
      simp only [lookupCell]
      rw [if_neg hix, if_neg hix]
      exact ih
    · rw [if_neg hc]
      simp only [lookupCell]
      by_cases hix : i = x
      · rw [if_pos hix, if_pos hix]
      · rw [if_neg hix, if_neg hix]
        exact ih

theorem lookup_freeCell (h : Heap) (c x : CellId) :
    lookupCell (freeCell h c) x = if x = c then none else lookupCell h x := by
  induction h with
  | nil =>
    by_cases hx : x = c
    · rw [if_pos hx]; rfl
    · rw [if_neg hx]; rfl
  | cons e t ih =>
    obtain ⟨i, cl⟩ := e
    simp only [freeCell]
    by_cases hc : i = c
    · rw [if_pos hc, ih]
      by_cases hx : x = c
      · rw [if_pos hx, if_pos hx]
      · have hix : ¬ i = x := fun hh => hx (hh ▸ hc ▸ rfl)
        rw [if_neg hx, if_neg hx]
        simp only [lookupCell]
        rw [if_neg hix]
    · rw [if_neg hc]
      simp only [lookupCell]
      by_cases hix : i = x
      · have hx : ¬ x = c := fun hh => hc (hix ▸ hh ▸ rfl)
        rw [if_pos hix, if_neg hx, if_pos hix]
      · rw [if_neg hix, ih]
        by_cases hx : x = c
        · rw [if_pos hx, if_pos hx]
        · rw [if_neg hx, if_neg hx, if_neg hix]

theorem marks_setMark_ne (h : Heap) (c x : CellId) (v : Bool) (hx : x ≠ c) :
    marks (setMark h c v) x = marks h x := by
  simp [marks, lookup_setMark_ne h c x v hx]

theorem marks_setPrev (h : Heap) (c x : CellId) (p : Option CellId) :
    marks (setPrev h c p) x = marks h x := by
  by_cases hx : x = c
  · subst hx
    simp only [marks, lookup_setPrev_self]
    cases lookupCell h x <;> rfl
  · simp [marks, lookup_setPrev_ne h c x p hx]

theorem marks_freeCell_ne (h : Heap) (c x : CellId) (hx : x ≠ c) :
    marks (freeCell h c) x = marks h x := by
  simp [marks, lookup_freeCell, hx]

/-- `chainWF` only inspects the `prev` fields of the cells listed in `l`. -/
theorem chainWF_congr (h₁ h₂ : Heap) (cur : Option CellId) (l : List CellId)
    (he : ∀ x ∈ l, Option.map Cell.prev (lookupCell h₁ x) =
        Option.map Cell.prev (lookupCell h₂ x)) :
    chainWF h₁ cur l = chainWF h₂ cur l := by
  induction l generalizing cur with
  | nil => cases cur <;> rfl
  | cons i t ih =>
    cases cur with
    | none => rfl
    | some c =>
      by_cases hci : c = i
      case neg =>
        show (decide (c = i) && _) = (decide (c = i) && _)
        rw [decide_eq_false hci]
        rw [Bool.false_and, Bool.false_and]
      case pos =>
      subst hci
      have hc := he c (List.mem_cons_self c t)
      simp only [chainWF]
      cases h1 : lookupCell h₁ c with
      | none =>
        rw [h1] at hc
        cases h2 : lookupCell h₂ c with
        | none => rfl
        | some cl₂ => rw [h2] at hc; simp at hc
      | some cl₁ =>
        rw [h1] at hc
        cases h2 : lookupCell h₂ c with
        | none => rw [h2] at hc; simp at hc
        | some cl₂ =>
          rw [h2] at hc
          have hprev : cl₁.prev = cl₂.prev := by simpa using hc
          show (decide True && chainWF h₁ cl₁.prev t) =
            (decide True && chainWF h₂ cl₂.prev t)
          rw [hprev, ih cl₂.prev (fun x hx => he x (List.mem_cons_of_mem c hx))]

theorem prevMap_setMark (h : Heap) (c x : CellId) (v : Bool) :
    Option.map Cell.prev (lookupCell (setMark h c v) x) =
      Option.map Cell.prev (lookupCell h x) := by
  by_cases hx : x = c
  · subst hx
    rw [lookup_setMark_self]
    cases lookupCell h x <;> rfl
  · rw [lookup_setMark_ne h c x v hx]

theorem hkeys_setMark (h : Heap) (c : CellId) (v : Bool) :
    hkeys (setMark h c v) = hkeys h := by
  induction h with
  | nil => rfl
  | cons e t ih =>
    obtain ⟨i, cl⟩ := e
    simp only [setMark, hkeys, List.map_cons]
    by_cases hc : i = c
    · rw [if_pos hc]
      simpa [hkeys] using ih
    · rw [if_neg hc]
      simpa [hkeys] using ih

theorem hkeys_setPrev (h : Heap) (c : CellId) (p : Option CellId) :
    hkeys (setPrev h c p) = hkeys h := by
  induction h with
  | nil => rfl
  | cons e t ih =>
    obtain ⟨i, cl⟩ := e
    simp only [setPrev, hkeys, List.map_cons]
    by_cases hc : i = c
    · rw [if_pos hc]
      simpa [hkeys] using ih
    · rw [if_neg hc]
      simpa [hkeys] using ih

theorem hkeys_freeCell (h : Heap) (c : CellId) :
    hkeys (freeCell h c) = (hkeys h).filter (fun x => !decide (x = c)) := by
  induction h with
  | nil => rfl
  | cons e t ih =>
    obtain ⟨i, cl⟩ := e
    simp only [freeCell, hkeys, List.map_cons, List.filter_cons]
    by_cases hc : i = c
    · rw [if_pos hc]
      simp only [hc, decide_eq_true rfl]
      simpa [hkeys] using ih
    · rw [if_neg hc]
      simp only [decide_eq_false hc, Bool.not_false, if_true]
      simp only [hkeys, List.map_cons] at ih ⊢
      rw [ih]

theorem mem_hkeys_of_lookup (h : Heap) (c : CellId) (cl : Cell)
    (hl : lookupCell h c = some cl) : c ∈ hkeys h := by
  induction h with
  | nil => simp [lookupCell] at hl
  | cons e t ih =>
    obtain ⟨i, cl'⟩ := e
    simp only [lookupCell] at hl
    by_cases hic : i = c
    · simp [hkeys, hic]
    · rw [if_neg hic] at hl
      simp only [hkeys, List.map_cons, List.mem_cons]
      exact Or.inr (ih hl)

theorem chainWF_lookup_isSome (h : Heap) (cur : Option CellId) (l : List CellId)
    (hwf : chainWF h cur l = true) : ∀ x ∈ l, ∃ cl, lookupCell h x = some cl := by
  induction l generalizing cur with
  | nil => intro x hx; cases hx
  | cons i t ih =>
    cases cur with
    | none => cases hwf
    | some c =>
      simp only [chainWF, Bool.and_eq_true, decide_eq_true_eq] at hwf
      obtain ⟨hci, hrest⟩ := hwf
      subst hci
      cases hlk : lookupCell h c with
      | none => rw [hlk] at hrest; cases hrest
      | some cl =>
        rw [hlk] at hrest
        intro x hx
        rcases List.mem_cons.mp hx with hx | hx
        · exact ⟨cl, hx ▸ hlk⟩
        · exact ih cl.prev hrest x hx

theorem chainWF_length_le (h : Heap) (cur : Option CellId) (l : List CellId)
    (hwf : chainWF h cur l = true) (hnd : l.Nodup) : l.length ≤ h.length := by
  have hsub : l ⊆ hkeys h := by
    intro x hx
    obtain ⟨cl, hcl⟩ := chainWF_lookup_isSome h cur l hwf x hx
    exact mem_hkeys_of_lookup h x cl hcl
  have := (List.subperm_of_subset hnd hsub).length_le
  simpa [hkeys] using this

theorem liveIds_congr (h₁ h₂ : Heap) (l : List CellId)
    (he : ∀ x ∈ l, marks h₁ x = marks h₂ x) : liveIds h₁ l = liveIds h₂ l := by
  unfold liveIds
  exact List.filter_congr he

theorem deadIds_congr (h₁ h₂ : Heap) (l : List CellId)
    (he : ∀ x ∈ l, marks h₁ x = marks h₂ x) : deadIds h₁ l = deadIds h₂ l := by
  unfold deadIds
  exact List.filter_congr (fun x hx => by rw [he x hx])

/-- Prepending a cell to a well-formed chain. -/
theorem chainWF_cons_intro (h : Heap) (c : CellId) (l : List CellId) (cl : Cell)
    (hlk : lookupCell h c = some cl) (hch : chainWF h cl.prev l = true) :
    chainWF h (some c) (c :: l) = true := by
  simp only [chainWF, hlk, Bool.and_eq_true, decide_eq_true_eq]
  exact ⟨trivial, hch⟩

/-- Transfer of the sweep postcondition across one marked (surviving)
cell at the head of the chain. -/
theorem sweepPost_marked_step (h : Heap) (i : CellId) (rest : List CellId)
    (cl : Cell) (lastLive newHead nh' : Option CellId) (freed : List CellId)
    (r : Heap × Option CellId × List CellId)
    (hlk : lookupCell h i = some cl) (hm : cl.marked = true)
    (hi_rest : i ∉ rest)
    (hll : ∀ j, lastLive = some j → j ∉ i :: rest ∧ ∃ fj,
      lookupCell h j = some ⟨some i, false, fj⟩)
    (hnh : nh' = (match newHead with | none => some i | some x => some x))
    (hpost : SweepPost (setMark h i false) rest (some i) nh' freed r) :
    SweepPost h (i :: rest) lastLive newHead freed r := by
  obtain ⟨A, B, C, D, E, F, G, K⟩ := hpost
  have hmarks_i : marks h i = true := by
    simp [marks, hlk, hm]
  have hmr : ∀ x ∈ rest, marks (setMark h i false) x = marks h x :=
    fun x hx => marks_setMark_ne h i x false (fun hxi => hi_rest (hxi ▸ hx))
  have hlive_cons : liveIds h (i :: rest) = i :: liveIds h rest := by
    simp [liveIds, List.filter_cons, hmarks_i]
  have hdead_cons : deadIds h (i :: rest) = deadIds h rest := by
    simp [deadIds, List.filter_cons, hmarks_i]
  have hlive' : liveIds (setMark h i false) rest = liveIds h rest :=
    liveIds_congr _ _ _ hmr
  have hdead' : deadIds (setMark h i false) rest = deadIds h rest :=
    deadIds_congr _ _ _ hmr
  have hri : lookupCell r.1 i =
      some ⟨(liveIds h rest).head?, false, cl.fields⟩ := by
    have hD := D i rfl
    rw [lookup_setMark_self, hlk, hlive'] at hD
    simpa using hD
  refine ⟨?_, ?_, ?_, ?_, ?_, ?_, ?_, ?_⟩
  · rw [A, hdead', hdead_cons]
  · cases newHead with
    | some x =>
      simp only [hnh] at B
      simpa using B
    | none =>
      simp only [hnh] at B
      rw [hlive_cons]
      simpa using B
  · intro x hx hlx
    have hxi : x ≠ i := fun he => hx (he ▸ List.mem_cons_self i rest)
    have hxrest : x ∉ rest := fun he => hx (List.mem_cons_of_mem i he)
    have := C x hxrest (fun he => hxi (Option.some.inj he).symm)
    rw [this, lookup_setMark_ne h i x false hxi]
  · intro j hj
    obtain ⟨hjl, fj, hfj⟩ := hll j hj
    have hji : j ≠ i := fun he => hjl (he ▸ List.mem_cons_self i rest)
    have hjrest : j ∉ rest := fun he => hjl (List.mem_cons_of_mem i he)
    have h1 := C j hjrest (fun he => hji (Option.some.inj he).symm)
    rw [h1, lookup_setMark_ne h i j false hji, hfj, hlive_cons]
    rfl
  · rw [hlive_cons]
    refine chainWF_cons_intro r.1 i (liveIds h rest)
      ⟨(liveIds h rest).head?, false, cl.fields⟩ hri ?_
    show chainWF r.1 (liveIds h rest).head? (liveIds h rest) = true
    rw [← hlive']
    exact E
  · intro x hx
    rw [hlive_cons] at hx
    rcases List.mem_cons.mp hx with hx | hx
    · subst hx
      exact ⟨cl, ⟨(liveIds h rest).head?, false, cl.fields⟩, hlk, hri, rfl, rfl⟩
    · have hxrest : x ∈ rest := by
        simpa [liveIds] using (List.mem_filter.mp hx).1
      have hxi : x ≠ i := fun he => hi_rest (he ▸ hxrest)
      obtain ⟨cl₁, cl', hcl₁, hcl', hfs, hmk⟩ := F x (by rw [hlive']; exact hx)
      rw [lookup_setMark_ne h i x false hxi] at hcl₁
      exact ⟨cl₁, cl', hcl₁, hcl', hfs, hmk⟩
  · intro x hx
    rw [hdead_cons] at hx
    exact G x (by rw [hdead']; exact hx)
  · rw [K, hkeys_setMark, hdead', hdead_cons]

/-- Transfer of the sweep postcondition across one unmarked (freed)
cell at the head of the chain; `h₂` is the heap after the splice of
`last_live.prev` and the deallocation of the head cell. -/
theorem sweepPost_dead_step (h h₂ : Heap) (i : CellId) (rest : List CellId)
    (cl : Cell) (lastLive newHead : Option CellId) (freed : List CellId)
    (r : Heap × Option CellId × List CellId)
    (hlk : lookupCell h i = some cl) (hm : cl.marked = false)
    (hi_rest : i ∉ rest)
    (hll : ∀ j, lastLive = some j → j ∉ i :: rest ∧ ∃ fj,
      lookupCell h j = some ⟨some i, false, fj⟩)
    (hl2 : ∀ x, x ≠ i → lastLive ≠ some x → lookupCell h₂ x = lookupCell h x)
    (hl2i : lookupCell h₂ i = none)
    (hl2ll : ∀ j fj, lastLive = some j → lookupCell h j = some ⟨some i, false, fj⟩ →
      lookupCell h₂ j = some ⟨cl.prev, false, fj⟩)
    (hkey : hkeys h₂ = (hkeys h).filter (fun x => !decide (x = i)))
    (hpost : SweepPost h₂ rest lastLive newHead (freed ++ [i]) r) :
    SweepPost h (i :: rest) lastLive newHead freed r := by
  obtain ⟨A, B, C, D, E, F, G, K⟩ := hpost
  have hmarks_i : marks h i = false := by
    simp [marks, hlk, hm]
  have hllx : ∀ x, x ∈ rest → lastLive ≠ some x := by
    intro x hx he
    obtain ⟨hjl, _⟩ := hll x he
    exact hjl (List.mem_cons_of_mem i hx)
  have hmr : ∀ x ∈ rest, marks h₂ x = marks h x := by
    intro x hx
    have hxi : x ≠ i := fun he => hi_rest (he ▸ hx)
    rw [marks, marks, hl2 x hxi (hllx x hx)]
  have hlive_cons : liveIds h (i :: rest) = liveIds h rest := by
    simp [liveIds, List.filter_cons, hmarks_i]
  have hdead_cons : deadIds h (i :: rest) = i :: deadIds h rest := by
    simp [deadIds, List.filter_cons, hmarks_i]
  have hlive' : liveIds h₂ rest = liveIds h rest := liveIds_congr _ _ _ hmr
  have hdead' : deadIds h₂ rest = deadIds h rest := deadIds_congr _ _ _ hmr
  refine ⟨?_, ?_, ?_, ?_, ?_, ?_, ?_, ?_⟩
  · rw [A, hdead', hdead_cons, List.append_assoc]
    rfl
  · rw [B, hlive', hlive_cons]
  · intro x hx hlx
    have hxi : x ≠ i := fun he => hx (he ▸ List.mem_cons_self i rest)
    have hxrest : x ∉ rest := fun he => hx (List.mem_cons_of_mem i he)
    rw [C x hxrest hlx, hl2 x hxi hlx]
  · intro j hj
    obtain ⟨hjl, fj, hfj⟩ := hll j hj
    have hD := D j hj
    rw [hl2ll j fj hj hfj, hlive'] at hD
    rw [hD, hfj, hlive_cons]
    rfl
  · rw [hlive_cons, ← hlive']
    exact E
  · intro x hx
    rw [hlive_cons] at hx
    have hxrest : x ∈ rest := by
      simpa [liveIds] using (List.mem_filter.mp hx).1
    have hxi : x ≠ i := fun he => hi_rest (he ▸ hxrest)
    obtain ⟨cl₁, cl', hcl₁, hcl', hfs, hmk⟩ := F x (by rw [hlive']; exact hx)
    rw [hl2 x hxi (hllx x hxrest)] at hcl₁
    exact ⟨cl₁, cl', hcl₁, hcl', hfs, hmk⟩
  · intro x hx
    rw [hdead_cons] at hx
    rcases List.mem_cons.mp hx with hx | hx
    · subst hx
      have hlx : lastLive ≠ some x := by
        intro he
        obtain ⟨hjl, _⟩ := hll x he
        exact hjl (List.mem_cons_self x rest)
      rw [C x hi_rest hlx, hl2i]
    · exact G x (by rw [hdead']; exact hx)
  · rw [K, hkey, hdead', hdead_cons, List.filter_filter]
    apply List.filter_congr
    intro x _
    by_cases h1 : x = i <;> by_cases h2 : x ∈ deadIds h rest <;>
      simp [h1, h2]

/-- Master specification of the sweep loop: if the cursor hangs a
well-formed chain `l`, the list is duplicate-free, the fuel covers the
chain, and `last_live` (when set) is an already-processed unmarked cell
pointing at the cursor, then the loop satisfies `SweepPost`. -/
theorem sweepLoop_spec (l : List CellId) : ∀ (fuel : Nat) (h : Heap)
    (cur lastLive newHead : Option CellId) (freed : List CellId),
    chainWF h cur l = true → l.Nodup → l.length ≤ fuel →
    (∀ j, lastLive = some j → j ∉ l ∧ ∃ fj,
      lookupCell h j = some ⟨cur, false, fj⟩) →
    SweepPost h l lastLive newHead freed
      (sweepLoop fuel h cur lastLive newHead freed) := by
  induction l with
  | nil =>
    intro fuel h cur lastLive newHead freed hwf hnd hfu hll
    have hcur : cur = none := by
      cases cur with
      | none => rfl
      | some c => cases hwf
    subst hcur
    have hr : sweepLoop fuel h none lastLive newHead freed = (h, newHead, freed) := by
      cases fuel <;> rfl
    rw [hr]
    refine ⟨by simp [deadIds], ?_, fun x _ _ => rfl, ?_, by simp [liveIds, chainWF],
      ?_, ?_, by simp [deadIds]⟩
    · cases newHead <;> simp [liveIds]
    · intro j hj
      obtain ⟨_, fj, hfj⟩ := hll j hj
      simp only [liveIds, List.filter_nil, List.head?_nil, hfj]
      rfl
    · intro x hx
      simp [liveIds] at hx
    · intro x hx
      simp [deadIds] at hx
  | cons i rest ih =>
    intro fuel h cur lastLive newHead freed hwf hnd hfu hll
    cases cur with
    | none => cases hwf
    | some c =>
      simp only [chainWF, Bool.and_eq_true, decide_eq_true_eq] at hwf
      obtain ⟨hci, hrest⟩ := hwf
      symm at hci
      subst hci
      cases hlk : lookupCell h i with
      | none =>
        rw [hlk] at hrest
        simp at hrest
      | some cl =>
        rw [hlk] at hrest
        obtain ⟨hi_rest, hndrest⟩ := List.nodup_cons.mp hnd
        cases fuel with
        | zero => simp at hfu
        | succ f =>
          have hfu' : rest.length ≤ f := by
            simpa using hfu
          simp only [sweepLoop, hlk]
          by_cases hm : cl.marked
          -- ===== the cell is marked: unmark it, it survives =====
          · rw [if_pos hm]
            have hwf' : chainWF (setMark h i false) cl.prev rest = true := by
              rw [chainWF_congr (setMark h i false) h cl.prev rest
                (fun x _ => prevMap_setMark h i x false)]
              exact hrest
            have hll' : ∀ j, (some i : Option CellId) = some j → j ∉ rest ∧ ∃ fj,
                lookupCell (setMark h i false) j = some ⟨cl.prev, false, fj⟩ := by
              intro j hj
              obtain rfl : i = j := Option.some.inj hj
              refine ⟨hi_rest, cl.fields, ?_⟩
              rw [lookup_setMark_self, hlk]
              rfl
            exact sweepPost_marked_step h i rest cl lastLive newHead _ freed _
              hlk hm hi_rest hll rfl
              (ih f (setMark h i false) cl.prev (some i) _ freed hwf' hndrest hfu' hll')
          -- ===== the cell is unmarked: splice it out and free it =====
          · rw [if_neg hm]
            have hmb : cl.marked = false := by
              simpa using hm
            cases lastLive with
            | none =>
              show SweepPost h (i :: rest) none newHead freed
                (sweepLoop f (freeCell h i) cl.prev none newHead (freed ++ [i]))
              have hlkfc : ∀ x, x ≠ i → lookupCell (freeCell h i) x = lookupCell h x := by
                intro x hxi
                rw [lookup_freeCell, if_neg hxi]
              have hwf' : chainWF (freeCell h i) cl.prev rest = true := by
                rw [chainWF_congr (freeCell h i) h cl.prev rest
                  (fun x hx => by rw [hlkfc x (fun hxi => hi_rest (hxi ▸ hx))])]
                exact hrest
              refine sweepPost_dead_step h (freeCell h i) i rest cl none newHead freed _
                hlk hmb hi_rest hll (fun x hxi _ => hlkfc x hxi)
                (by rw [lookup_freeCell, if_pos rfl]) ?_ (hkeys_freeCell h i) ?_
              · intro j fj hj
                cases hj
              · exact ih f (freeCell h i) cl.prev none newHead (freed ++ [i])
                  hwf' hndrest hfu' (by intro j hj; cases hj)
            | some ll =>
              show SweepPost h (i :: rest) (some ll) newHead freed
                (sweepLoop f (freeCell (setPrev h ll cl.prev) i) cl.prev (some ll)
                  newHead (freed ++ [i]))
              obtain ⟨hlll, fll, hfll⟩ := hll ll rfl
              have hll_i : ll ≠ i := fun he => hlll (he ▸ List.mem_cons_self i rest)
              have hll_rest : ll ∉ rest := fun he => hlll (List.mem_cons_of_mem i he)
              have hlkfc : ∀ x, x ≠ i → x ≠ ll →
                  lookupCell (freeCell (setPrev h ll cl.prev) i) x = lookupCell h x := by
                intro x hxi hxll
                rw [lookup_freeCell, if_neg hxi, lookup_setPrev_ne h ll x cl.prev hxll]
              have hlkll : ∀ fj, lookupCell h ll = some ⟨some i, false, fj⟩ →
                  lookupCell (freeCell (setPrev h ll cl.prev) i) ll =
                    some ⟨cl.prev, false, fj⟩ := by
                intro fj hfj
                rw [lookup_freeCell, if_neg hll_i, lookup_setPrev_self, hfj]
                rfl
              have hwf' : chainWF (freeCell (setPrev h ll cl.prev) i) cl.prev rest
                  = true := by
                rw [chainWF_congr _ h cl.prev rest (fun x hx => by
                  have hxi : x ≠ i := fun he => hi_rest (he ▸ hx)
                  have hxll : x ≠ ll := fun he => hll_rest (he ▸ hx)
                  rw [hlkfc x hxi hxll])]
                exact hrest
              have hll2 : ∀ j, (some ll : Option CellId) = some j → j ∉ rest ∧ ∃ fj,
                  lookupCell (freeCell (setPrev h ll cl.prev) i) j =
                    some ⟨cl.prev, false, fj⟩ := by
                intro j hj
                obtain rfl : ll = j := Option.some.inj hj
                exact ⟨hll_rest, fll, hlkll fll hfll⟩
              refine sweepPost_dead_step h (freeCell (setPrev h ll cl.prev) i) i rest cl
                (some ll) newHead freed _ hlk hmb hi_rest hll ?_
                (by rw [lookup_freeCell, if_pos rfl]) ?_
                (by rw [hkeys_freeCell, hkeys_setPrev]) ?_
              · intro x hxi hlx
                exact hlkfc x hxi (fun he => hlx (by rw [he]))
              · intro j fj hj hfj
                obtain rfl : ll = j := Option.some.inj hj
                exact hlkll fj hfj
              · exact ih f (freeCell (setPrev h ll cl.prev) i) cl.prev (some ll)
                  newHead (freed ++ [i]) hwf' hndrest hfu' hll2

/-- The `sweep` wrapper only reshapes the loop result (the `match` on
`new_head` is the identity on `Option`). -/
theorem sweep_eq (h : Heap) (head : Option CellId) :
    sweep h head = sweepLoop (h.length + 1) h head none none [] := by
  show ((sweepLoop (h.length + 1) h head none none []).1,
      (match (sweepLoop (h.length + 1) h head none none []).2.1 with
       | some p => some p
       | none => none),
      (sweepLoop (h.length + 1) h head none none []).2.2) =
    sweepLoop (h.length + 1) h head none none []
  cases hnh : (sweepLoop (h.length + 1) h head none none []).2.1 with
  | none => exact Prod.ext rfl (Prod.ext hnh.symm rfl)
  | some p => exact Prod.ext rfl (Prod.ext hnh.symm rfl)

/-- `sweep` satisfies the loop postcondition (the fuel `h.length + 1`
covers any duplicate-free chain of allocated cells). -/
theorem sweep_spec (h : Heap) (head : Option CellId) (l : List CellId)
    (hwf : chainWF h head l = true) (hnd : l.Nodup) :
    SweepPost h l none none [] (sweep h head) := by
  rw [sweep_eq]
  exact sweepLoop_spec l (h.length + 1) h head none none [] hwf hnd
    (le_trans (chainWF_length_le h head l hwf hnd) (Nat.le_succ _))
    (by intro j hj; cases hj)

/-- **C2.** For every allocation chain (a heap `h` whose chain from the
allocator head is the duplicate-free list `l`) and every marking of its
cells, one `sweep` pass frees exactly the cells that were unmarked when
sweep began (the destructor log is exactly `deadIds h l`, each dead
cell appearing exactly once, and the freed cells are deallocated), and
retains every marked cell with its mark bit cleared and its payload
untouched; surviving cells keep their relative order and each
survivor's `prev` points to the next older survivor (the survivors form
a well-linked chain in order `liveIds h l`), and the allocator head is
set to the newest survivor, or to null when no cell was marked. -/
theorem sweep_frees_exactly_unmarked (h : Heap) (head : Option CellId)
    (l : List CellId) (hwf : chainWF h head l = true) (hnd : l.Nodup) :
    (sweep h head).2.2 = deadIds h l ∧
    (sweep h head).2.2.Nodup ∧
    (∀ x ∈ deadIds h l, lookupCell (sweep h head).1 x = none) ∧
    (∀ x ∈ liveIds h l, ∃ cl cl', lookupCell h x = some cl ∧
      lookupCell (sweep h head).1 x = some cl' ∧ cl'.fields = cl.fields ∧
      cl'.marked = false) ∧
    chainWF (sweep h head).1 (liveIds h l).head? (liveIds h l) = true ∧
    (sweep h head).2.1 = (liveIds h l).head? ∧
    hkeys (sweep h head).1 =
      (hkeys h).filter (fun x => !decide (x ∈ deadIds h l)) := by
  obtain ⟨A, B, C, D, E, F, G, K⟩ := sweep_spec h head l hwf hnd
  refine ⟨by simpa using A, ?_, G, F, E, by simpa using B, K⟩
  rw [A]
  simp only [List.nil_append]
  exact List.Nodup.filter _ hnd

/-- Witness for C2: the six-cell chain of the crate's own
`mark_and_sweep_1` test (marks 1,0,1,0,0,1 from the oldest cell). -/
theorem sweep_frees_exactly_unmarked_witness :
    (chainWF
        [(6, ⟨some 5, true, []⟩), (5, ⟨some 4, false, []⟩),
         (4, ⟨some 3, false, []⟩), (3, ⟨some 2, true, []⟩),
         (2, ⟨some 1, false, []⟩), (1, ⟨none, true, []⟩)]
        (some 6) [6, 5, 4, 3, 2, 1] = true ∧
      ([6, 5, 4, 3, 2, 1] : List CellId).Nodup) ∧
    ((sweep
        [(6, ⟨some 5, true, []⟩), (5, ⟨some 4, false, []⟩),
         (4, ⟨some 3, false, []⟩), (3, ⟨some 2, true, []⟩),
         (2, ⟨some 1, false, []⟩), (1, ⟨none, true, []⟩)]
        (some 6)).2.2 =
      deadIds
        [(6, ⟨some 5, true, []⟩), (5, ⟨some 4, false, []⟩),
         (4, ⟨some 3, false, []⟩), (3, ⟨some 2, true, []⟩),
         (2, ⟨some 1, false, []⟩), (1, ⟨none, true, []⟩)]
        [6, 5, 4, 3, 2, 1] ∧
     (sweep
        [(6, ⟨some 5, true, []⟩), (5, ⟨some 4, false, []⟩),
         (4, ⟨some 3, false, []⟩), (3, ⟨some 2, true, []⟩),
         (2, ⟨some 1, false, []⟩), (1, ⟨none, true, []⟩)]
        (some 6)).2.2.Nodup ∧
     (∀ x ∈ deadIds
        [(6, ⟨some 5, true, []⟩), (5, ⟨some 4, false, []⟩),
         (4, ⟨some 3, false, []⟩), (3, ⟨some 2, true, []⟩),
         (2, ⟨some 1, false, []⟩), (1, ⟨none, true, []⟩)]
        [6, 5, 4, 3, 2, 1],
       lookupCell (sweep
        [(6, ⟨some 5, true, []⟩), (5, ⟨some 4, false, []⟩),
         (4, ⟨some 3, false, []⟩), (3, ⟨some 2, true, []⟩),
         (2, ⟨some 1, false, []⟩), (1, ⟨none, true, []⟩)]
        (some 6)).1 x = none) ∧
     (∀ x ∈ liveIds
        [(6, ⟨some 5, true, []⟩), (5, ⟨some 4, false, []⟩),
         (4, ⟨some 3, false, []⟩), (3, ⟨some 2, true, []⟩),
         (2, ⟨some 1, false, []⟩), (1, ⟨none, true, []⟩)]
        [6, 5, 4, 3, 2, 1], ∃ cl cl', lookupCell
        [(6, ⟨some 5, true, []⟩), (5, ⟨some 4, false, []⟩),
         (4, ⟨some 3, false, []⟩), (3, ⟨some 2, true, []⟩),
         (2, ⟨some 1, false, []⟩), (1, ⟨none, true, []⟩)] x = some cl ∧
       lookupCell (sweep
        [(6, ⟨some 5, true, []⟩), (5, ⟨some 4, false, []⟩),
         (4, ⟨some 3, false, []⟩), (3, ⟨some 2, true, []⟩),
         (2, ⟨some 1, false, []⟩), (1, ⟨none, true, []⟩)]
        (some 6)).1 x = some cl' ∧ cl'.fields = cl.fields ∧
       cl'.marked = false) ∧
     chainWF (sweep
        [(6, ⟨some 5, true, []⟩), (5, ⟨some 4, false, []⟩),
         (4, ⟨some 3, false, []⟩), (3, ⟨some 2, true, []⟩),
         (2, ⟨some 1, false, []⟩), (1, ⟨none, true, []⟩)]
        (some 6)).1
       (liveIds
        [(6, ⟨some 5, true, []⟩), (5, ⟨some 4, false, []⟩),
         (4, ⟨some 3, false, []⟩), (3, ⟨some 2, true, []⟩),
         (2, ⟨some 1, false, []⟩), (1, ⟨none, true, []⟩)]
        [6, 5, 4, 3, 2, 1]).head?
       (liveIds
        [(6, ⟨some 5, true, []⟩), (5, ⟨some 4, false, []⟩),
         (4, ⟨some 3, false, []⟩), (3, ⟨some 2, true, []⟩),
         (2, ⟨some 1, false, []⟩), (1, ⟨none, true, []⟩)]
        [6, 5, 4, 3, 2, 1]) = true ∧
     (sweep
        [(6, ⟨some 5, true, []⟩), (5, ⟨some 4, false, []⟩),
         (4, ⟨some 3, false, []⟩), (3, ⟨some 2, true, []⟩),
         (2, ⟨some 1, false, []⟩), (1, ⟨none, true, []⟩)]
        (some 6)).2.1 =
       (liveIds
        [(6, ⟨some 5, true, []⟩), (5, ⟨some 4, false, []⟩),
         (4, ⟨some 3, false, []⟩), (3, ⟨some 2, true, []⟩),
         (2, ⟨some 1, false, []⟩), (1, ⟨none, true, []⟩)]
        [6, 5, 4, 3, 2, 1]).head? ∧
     hkeys (sweep
        [(6, ⟨some 5, true, []⟩), (5, ⟨some 4, false, []⟩),
         (4, ⟨some 3, false, []⟩), (3, ⟨some 2, true, []⟩),
         (2, ⟨some 1, false, []⟩), (1, ⟨none, true, []⟩)]
        (some 6)).1 =
       (hkeys
        [(6, ⟨some 5, true, []⟩), (5, ⟨some 4, false, []⟩),
         (4, ⟨some 3, false, []⟩), (3, ⟨some 2, true, []⟩),
         (2, ⟨some 1, false, []⟩), (1, ⟨none, true, []⟩)]).filter
         (fun x => !decide (x ∈ deadIds
        [(6, ⟨some 5, true, []⟩), (5, ⟨some 4, false, []⟩),
         (4, ⟨some 3, false, []⟩), (3, ⟨some 2, true, []⟩),
         (2, ⟨some 1, false, []⟩), (1, ⟨none, true, []⟩)]
        [6, 5, 4, 3, 2, 1]))) :=
  ⟨⟨by decide, by decide⟩,
    sweep_frees_exactly_unmarked
      [(6, ⟨some 5, true, []⟩), (5, ⟨some 4, false, []⟩),
       (4, ⟨some 3, false, []⟩), (3, ⟨some 2, true, []⟩),
       (2, ⟨some 1, false, []⟩), (1, ⟨none, true, []⟩)]
      (some 6) [6, 5, 4, 3, 2, 1] (by decide) (by decide)⟩

theorem lookup_markList (ms : List CellId) (h : Heap) (x : CellId) :
    lookupCell (markList h ms) x =
      (lookupCell h x).map
        (fun cl => { cl with marked := cl.marked || decide (x ∈ ms) }) := by
  induction ms generalizing h with
  | nil =>
    show lookupCell h x = _
    cases hl : lookupCell h x with
    | none => rfl
    | some cl =>
      cases cl
      simp
  | cons m ms' ih =>
    show lookupCell (markList (setMark h m true) ms') x = _
    rw [ih (setMark h m true)]
    by_cases hx : x = m
    · subst hx
      rw [lookup_setMark_self]
      cases hl : lookupCell h x with
      | none => rfl
      | some cl =>
        cases cl
        simp [List.mem_cons]
    · rw [lookup_setMark_ne h m x true hx]
      cases hl : lookupCell h x with
      | none => rfl
      | some cl =>
        cases cl
        simp [List.mem_cons, hx]

theorem hkeys_markList (ms : List CellId) (h : Heap) :
    hkeys (markList h ms) = hkeys h := by
  induction ms generalizing h with
  | nil => rfl
  | cons m ms' ih =>
    show hkeys (markList (setMark h m true) ms') = hkeys h
    rw [ih (setMark h m true), hkeys_setMark]

theorem length_setMark (h : Heap) (c : CellId) (v : Bool) :
    (setMark h c v).length = h.length := by
  induction h with
  | nil => rfl
  | cons e t ih =>
    obtain ⟨i, cl⟩ := e
    simp only [setMark, List.length_cons, ih]

theorem length_markList (ms : List CellId) (h : Heap) :
    (markList h ms).length = h.length := by
  induction ms generalizing h with
  | nil => rfl
  | cons m ms' ih =>
    show (markList (setMark h m true) ms').length = h.length
    rw [ih (setMark h m true), length_setMark]

theorem marks_markList_of_not_mem (ms : List CellId) (h : Heap) (x : CellId)
    (hx : x ∉ ms) : marks (markList h ms) x = marks h x := by
  unfold marks
  rw [lookup_markList]
  cases hl : lookupCell h x with
  | none => rfl
  | some cl => simp [hx]

theorem marks_markList_of_mem (ms : List CellId) (h : Heap) (x : CellId)
    (cl : Cell) (hx : x ∈ ms) (hl : lookupCell h x = some cl) :
    marks (markList h ms) x = true := by
  rw [marks, lookup_markList, hl]
  simp [hx]

theorem unmarkedCount_setMark_true_le (h : Heap) (c : CellId) :
    unmarkedCount (setMark h c true) ≤ unmarkedCount h := by
  induction h with
  | nil => exact Nat.le_refl _
  | cons e t ih =>
    obtain ⟨i, cl⟩ := e
    simp only [setMark]
    by_cases hc : i = c
    · rw [if_pos hc]
      show unmarkedCount (setMark t c true) ≤ _
      simp only [unmarkedCount]
      cases hmk : cl.marked
      · rw [if_neg (by simp)]
        exact le_trans ih (Nat.le_succ _)
      · rw [if_pos rfl]
        exact ih
    · rw [if_neg hc]
      simp only [unmarkedCount]
      cases hmk : cl.marked
      · rw [if_neg (by simp), if_neg (by simp)]
        exact Nat.succ_le_succ ih
      · rw [if_pos rfl, if_pos rfl]
        exact ih

theorem unmarkedCount_setMark_true_lt (h : Heap) (c : CellId) (cl : Cell)
    (hlk : lookupCell h c = some cl) (hm : cl.marked = false) :
    unmarkedCount (setMark h c true) < unmarkedCount h := by
  induction h with
  | nil => cases hlk
  | cons e t ih =>
    obtain ⟨i, cle⟩ := e
    simp only [lookupCell] at hlk
    simp only [setMark]
    by_cases hc : i = c
    · rw [if_pos hc] at hlk ⊢
      obtain rfl : cl = cle := (Option.some.inj hlk).symm
      show unmarkedCount ((i, { cl with marked := true }) :: setMark t c true) <
        unmarkedCount ((i, cl) :: t)
      simp only [unmarkedCount, hm]
      rw [if_pos trivial, if_neg (by simp)]
      exact Nat.lt_succ_of_le (unmarkedCount_setMark_true_le t c)
    · rw [if_neg hc] at hlk ⊢
      simp only [unmarkedCount]
      cases hmk : cle.marked
      · rw [if_neg (by simp), if_neg (by simp)]
        exact Nat.succ_lt_succ (ih hlk)
      · rw [if_pos rfl, if_pos rfl]
        exact ih hlk

theorem unmarkedCount_markList_le (ms : List CellId) (h : Heap) :
    unmarkedCount (markList h ms) ≤ unmarkedCount h := by
  induction ms generalizing h with
  | nil => exact Nat.le_refl _
  | cons m ms' ih =>
    exact le_trans (ih (setMark h m true)) (unmarkedCount_setMark_true_le h m)

theorem lookup_of_mem_hkeys (h : Heap) (c : CellId) (hc : c ∈ hkeys h) :
    ∃ cl, lookupCell h c = some cl := by
  induction h with
  | nil => cases hc
  | cons e t ih =>
    obtain ⟨i, cl⟩ := e
    simp only [hkeys, List.map_cons, List.mem_cons] at hc
    by_cases hic : i = c
    · exact ⟨cl, by simp [lookupCell, hic]⟩
    · rcases hc with hc | hc
      · exact absurd hc.symm hic
      · obtain ⟨cl', hcl'⟩ := ih hc
        exact ⟨cl', by simp [lookupCell, hic, hcl']⟩

theorem markList_append (h : Heap) (a b : List CellId) :
    markList h (a ++ b) = markList (markList h a) b := by
  simp [markList, List.foldl_append]

theorem traceCell_none (fuel : Nat) (h : Heap) (c : CellId)
    (hlk : lookupCell h c = none) : traceCell (fuel + 1) h c = (h, []) := by
  simp only [traceCell, hlk]

theorem traceCell_marked (fuel : Nat) (h : Heap) (c : CellId) (cl : Cell)
    (hlk : lookupCell h c = some cl) (hm : cl.marked = true) :
    traceCell (fuel + 1) h c = (h, []) := by
  simp only [traceCell, hlk, if_pos hm]

theorem traceCell_unmarked (fuel : Nat) (h : Heap) (c : CellId) (cl : Cell)
    (hlk : lookupCell h c = some cl) (hm : ¬ cl.marked = true) :
    traceCell (fuel + 1) h c =
      ((foldTrace (traceCell fuel) (setMark h c true) cl.fields).1,
       c :: (foldTrace (traceCell fuel) (setMark h c true) cl.fields).2) := by
  simp only [traceCell, hlk, if_neg hm]

/-- Any step function whose heap effect is exactly marking its log,
with a duplicate-free log of unmarked allocated cells, lifts to
`foldTrace`. -/
theorem foldTrace_spec (step : Heap → CellId → Heap × List CellId)
    (hstep : ∀ h c, (step h c).1 = markList h (step h c).2 ∧
      (step h c).2.Nodup ∧
      (∀ x ∈ (step h c).2, marks h x = false ∧ x ∈ hkeys h)) :
    ∀ (fs : List CellId) (h : Heap),
      (foldTrace step h fs).1 = markList h (foldTrace step h fs).2 ∧
      (foldTrace step h fs).2.Nodup ∧
      (∀ x ∈ (foldTrace step h fs).2, marks h x = false ∧ x ∈ hkeys h) := by
  intro fs
  induction fs with
  | nil =>
    intro h
    exact ⟨rfl, List.nodup_nil, fun x hx => absurd hx (List.not_mem_nil x)⟩
  | cons f fs' ih =>
    intro h
    obtain ⟨s1, s2, s3⟩ := hstep h f
    obtain ⟨i1, i2, i3⟩ := ih (step h f).1
    have hmem1 : ∀ x ∈ (step h f).2, marks (step h f).1 x = true := by
      intro x hx
      obtain ⟨hmx, hkx⟩ := s3 x hx
      obtain ⟨cl, hcl⟩ := lookup_of_mem_hkeys h x hkx
      rw [s1]
      exact marks_markList_of_mem (step h f).2 h x cl hx hcl
    refine ⟨?_, ?_, ?_⟩
    · show (foldTrace step (step h f).1 fs').1 =
        markList h ((step h f).2 ++ (foldTrace step (step h f).1 fs').2)
      rw [markList_append, ← s1]
      exact i1
    · show ((step h f).2 ++ (foldTrace step (step h f).1 fs').2).Nodup
      refine List.Nodup.append s2 i2 ?_
      intro x hx1 hx2
      have := (i3 x hx2).1
      rw [hmem1 x hx1] at this
      cases this
    · intro x hx
      rcases List.mem_append.mp hx with hx | hx
      · exact s3 x hx
      · obtain ⟨hmx, hkx⟩ := i3 x hx
        have hkx' : x ∈ hkeys h := by
          rw [s1, hkeys_markList] at hkx
          exact hkx
        refine ⟨?_, hkx'⟩
        by_cases hx1 : x ∈ (step h f).2
        · rw [hmem1 x hx1] at hmx
          cases hmx
        · rw [s1, marks_markList_of_not_mem _ _ _ hx1] at hmx
          exact hmx

/-- `GcCell::trace` marks exactly the cells it dispatches, dispatches
each at most once, and dispatches only unmarked allocated cells. -/
theorem traceCell_spec : ∀ (fuel : Nat) (h : Heap) (c : CellId),
    (traceCell fuel h c).1 = markList h (traceCell fuel h c).2 ∧
    (traceCell fuel h c).2.Nodup ∧
    (∀ x ∈ (traceCell fuel h c).2, marks h x = false ∧ x ∈ hkeys h) := by
  intro fuel
  induction fuel with
  | zero =>
    intro h c
    exact ⟨rfl, List.nodup_nil, fun x hx => absurd hx (List.not_mem_nil x)⟩
  | succ f ihf =>
    intro h c
    cases hlk : lookupCell h c with
    | none =>
      simp only [traceCell, hlk]
      exact ⟨rfl, List.nodup_nil, fun x hx => absurd hx (List.not_mem_nil x)⟩
    | some cl =>
      by_cases hm : cl.marked = true
      · simp only [traceCell, hlk, if_pos hm]
        exact ⟨rfl, List.nodup_nil, fun x hx => absurd hx (List.not_mem_nil x)⟩
      · simp only [traceCell, hlk, if_neg hm]
        obtain ⟨f1, f2, f3⟩ := foldTrace_spec (traceCell f) ihf cl.fields
          (setMark h c true)
        refine ⟨f1, ?_, ?_⟩
        · refine List.nodup_cons.mpr ⟨?_, f2⟩
          intro hc2
          have := (f3 c hc2).1
          rw [marks, lookup_setMark_self, hlk] at this
          simp at this
        · intro x hx
          rcases List.mem_cons.mp hx with rfl | hx
          · exact ⟨by simp [marks, hlk, hm], mem_hkeys_of_lookup h x cl hlk⟩
          · obtain ⟨hmx, hkx⟩ := f3 x hx
            have hxc : x ≠ c := by
              intro he
              subst he
              rw [marks, lookup_setMark_self, hlk] at hmx
              simp at hmx
            refine ⟨?_, ?_⟩
            · rw [← marks_setMark_ne h c x true hxc]
              exact hmx
            · rw [← hkeys_setMark h c true]
              exact hkx

/-- The loop of the mark phase satisfies the same specification as a
single trace (per-collection dispatch log). -/
theorem markRootsAux_spec (fuel : Nat) :
    ∀ (roots : List (Option CellId)) (h : Heap),
      (markRootsAux fuel h roots).1 = markList h (markRootsAux fuel h roots).2 ∧
      (markRootsAux fuel h roots).2.Nodup ∧
      (∀ x ∈ (markRootsAux fuel h roots).2, marks h x = false ∧ x ∈ hkeys h) := by
  intro roots
  induction roots with
  | nil =>
    intro h
    exact ⟨rfl, List.nodup_nil, fun x hx => absurd hx (List.not_mem_nil x)⟩
  | cons r rs ih =>
    intro h
    cases r with
    | none =>
      show (markRootsAux fuel h rs).1 = _ ∧ _
      exact ih h
    | some c =>
      obtain ⟨s1, s2, s3⟩ := traceCell_spec fuel h c
      obtain ⟨i1, i2, i3⟩ := ih (traceCell fuel h c).1
      have hmem1 : ∀ x ∈ (traceCell fuel h c).2,
          marks (traceCell fuel h c).1 x = true := by
        intro x hx
        obtain ⟨hmx, hkx⟩ := s3 x hx
        obtain ⟨cl, hcl⟩ := lookup_of_mem_hkeys h x hkx
        rw [s1]
        exact marks_markList_of_mem _ h x cl hx hcl
      refine ⟨?_, ?_, ?_⟩
      · show (markRootsAux fuel (traceCell fuel h c).1 rs).1 =
          markList h ((traceCell fuel h c).2 ++
            (markRootsAux fuel (traceCell fuel h c).1 rs).2)
        rw [markList_append, ← s1]
        exact i1
      · show ((traceCell fuel h c).2 ++
          (markRootsAux fuel (traceCell fuel h c).1 rs).2).Nodup
        refine List.Nodup.append s2 i2 ?_
        intro x hx1 hx2
        have := (i3 x hx2).1
        rw [hmem1 x hx1] at this
        cases this
      · intro x hx
        rcases List.mem_append.mp hx with hx | hx
        · exact s3 x hx
        · obtain ⟨hmx, hkx⟩ := i3 x hx
          have hkx' : x ∈ hkeys h := by
            rw [s1, hkeys_markList] at hkx
            exact hkx
          refine ⟨?_, hkx'⟩
          by_cases hx1 : x ∈ (traceCell fuel h c).2
          · rw [hmem1 x hx1] at hmx
            cases hmx
          · rw [s1, marks_markList_of_not_mem _ _ _ hx1] at hmx
            exact hmx

/-- Enough fuel makes one more unit of fuel irrelevant: the
mark-and-trace recursion has settled. -/
theorem traceCell_fuel_succ : ∀ (fuel : Nat) (h : Heap) (c : CellId),
    unmarkedCount h + 1 ≤ fuel → traceCell (fuel + 1) h c = traceCell fuel h c := by
  intro fuel
  induction fuel with
  | zero =>
    intro h c hu
    exact absurd hu (by omega)
  | succ g ihg =>
    intro h c hu
    cases hlk : lookupCell h c with
    | none => rw [traceCell_none (g + 1) h c hlk, traceCell_none g h c hlk]
    | some cl =>
      by_cases hm : cl.marked = true
      · rw [traceCell_marked (g + 1) h c cl hlk hm, traceCell_marked g h c cl hlk hm]
      · rw [traceCell_unmarked (g + 1) h c cl hlk hm,
          traceCell_unmarked g h c cl hlk hm]
        have hlt := unmarkedCount_setMark_true_lt h c cl hlk (by simpa using hm)
        have hcu : unmarkedCount (setMark h c true) + 1 ≤ g := by omega
        suffices H : ∀ (fs : List CellId) (h' : Heap), unmarkedCount h' + 1 ≤ g →
            foldTrace (traceCell (g + 1)) h' fs = foldTrace (traceCell g) h' fs by
          rw [H cl.fields (setMark h c true) hcu]
        intro fs
        induction fs with
        | nil => intro h' _; rfl
        | cons f' fs' ihfs =>
          intro h' hu'
          simp only [foldTrace]
          rw [ihg h' f' hu']
          have hsp := (traceCell_spec g h' f').1
          have hle : unmarkedCount (traceCell g h' f').1 ≤ unmarkedCount h' := by
            rw [hsp]
            exact unmarkedCount_markList_le _ _
          rw [ihfs (traceCell g h' f').1 (by omega)]

/-- Any fuel at least `unmarkedCount h + 1` computes the settled
mark-and-trace result. -/
theorem traceCell_fuel_ge : ∀ (fuel : Nat) (h : Heap) (c : CellId),
    unmarkedCount h + 1 ≤ fuel →
    traceCell fuel h c = traceCell (unmarkedCount h + 1) h c := by
  intro fuel
  induction fuel with
  | zero =>
    intro h c hu
    exact absurd hu (by omega)
  | succ g ih =>
    intro h c hu
    by_cases hg : unmarkedCount h + 1 ≤ g
    · rw [traceCell_fuel_succ g h c hg, ih h c hg]
    · have he : unmarkedCount h + 1 = g + 1 := by omega
      rw [he]

/-- **C5.** For every finite set of cells and every trace relation
between them (the `fields` edges, cyclic object graphs included), the
mark phase's mark-and-trace terminates: its result is independent of
the fuel bound once the fuel exceeds the number of unmarked cells; a
cell whose mark bit is already set returns immediately with an empty
dispatch log (its trace thunk is not dispatched); and over a whole
collection's mark phase each cell's trace thunk is dispatched at most
once (the dispatch log has no duplicates). -/
theorem trace_cycle_cutoff_terminates (h : Heap) (c : CellId)
    (roots : List (Option CellId)) (fuel₁ fuel₂ : Nat)
    (h1 : unmarkedCount h + 1 ≤ fuel₁) (h2 : unmarkedCount h + 1 ≤ fuel₂) :
    (∀ cl, lookupCell h c = some cl → cl.marked = true →
      traceCell fuel₁ h c = (h, [])) ∧
    traceCell fuel₁ h c = traceCell fuel₂ h c ∧
    (markRoots h roots).2.Nodup := by
  refine ⟨?_, ?_, (markRootsAux_spec (h.length + 2) roots h).2.1⟩
  · intro cl hlk hm
    cases fuel₁ with
    | zero => rfl
    | succ g => simp only [traceCell, hlk, if_pos hm]
  · rw [traceCell_fuel_ge fuel₁ h c h1, traceCell_fuel_ge fuel₂ h c h2]

theorem allocN_add : ∀ (m n : Nat) (d : ScopeData),
    allocN d (m + n) = allocN (allocN d m) n := by
  intro m
  induction m with
  | zero =>
    intro n d
    rw [Nat.zero_add]
    rfl
  | succ m ih =>
    intro n d
    have he : m + 1 + n = (m + n) + 1 := by omega
    rw [he]
    show allocN (localAlloc d (some 2)).1 (m + n) = _
    rw [ih n (localAlloc d (some 2)).1]
    rfl

theorem alloc_handle_no_spill (d : ScopeData) (he : ¬ d.next = d.limit) :
    alloc_handle d = ({ d with next := ⟨d.next.index, d.next.ptr + 1⟩ }, d.next) := by
  unfold alloc_handle
  rw [if_neg he]

theorem alloc_handle_spill (d : ScopeData) (he : d.next = d.limit) :
    alloc_handle d =
      ({ allocBlock d with next := ⟨d.blocks.length, 1⟩ }, ⟨d.blocks.length, 0⟩) := by
  unfold alloc_handle
  rw [if_pos he]
  rfl

theorem localAlloc_no_spill (d : ScopeData) (v : Option CellId)
    (he : ¬ d.next = d.limit) :
    (localAlloc d v).1.next = ⟨d.next.index, d.next.ptr + 1⟩ ∧
    (localAlloc d v).1.limit = d.limit ∧
    (localAlloc d v).1.level = d.level ∧
    (localAlloc d v).1.tombstone = d.tombstone ∧
    (localAlloc d v).1.blocks.length = d.blocks.length ∧
    (localAlloc d v).2 = d.next := by
  unfold localAlloc
  rw [alloc_handle_no_spill d he]
  refine ⟨rfl, rfl, rfl, rfl, ?_, rfl⟩
  simp [writeSlot]

theorem localAlloc_spill (d : ScopeData) (v : Option CellId)
    (he : d.next = d.limit) :
    (localAlloc d v).1.next = ⟨d.blocks.length, 1⟩ ∧
    (localAlloc d v).1.limit = ⟨d.blocks.length, BLOCK_SIZE⟩ ∧
    (localAlloc d v).1.level = d.level ∧
    (localAlloc d v).1.tombstone = d.tombstone ∧
    (localAlloc d v).1.blocks.length = d.blocks.length + 1 ∧
    (localAlloc d v).2 = ⟨d.blocks.length, 0⟩ := by
  unfold localAlloc
  rw [alloc_handle_spill d he]
  refine ⟨rfl, rfl, rfl, rfl, ?_, rfl⟩
  simp [writeSlot, allocBlock]

theorem scopeDrop_some (sc : Scope) (d : ScopeData) (hl : d.level - 1 = sc.level) :
    scopeDrop sc d =
      some { d with tombstone := d.next, next := sc.prevNext, level := d.level - 1 } := by
  simp only [scopeDrop]
  rw [if_pos hl]

theorem allocN_same_block : ∀ (n : Nat) (d : ScopeData),
    d.next.index = d.limit.index → d.limit.ptr = BLOCK_SIZE →
    d.next.ptr + n ≤ BLOCK_SIZE →
    (allocN d n).next = ⟨d.next.index, d.next.ptr + n⟩ ∧
    (allocN d n).limit = d.limit ∧ (allocN d n).level = d.level ∧
    (allocN d n).tombstone = d.tombstone ∧
    (allocN d n).blocks.length = d.blocks.length := by
  intro n
  induction n with
  | zero =>
    intro d _ _ _
    refine ⟨?_, rfl, rfl, rfl, rfl⟩
    show d.next = _
    cases hb : d.next
    rfl
  | succ n ih =>
    intro d hidx hlim hle
    have hne : ¬ d.next = d.limit := by
      intro he
      rw [he, hlim] at hle
      omega
    obtain ⟨p1, p2, p3, p4, p5, _⟩ := localAlloc_no_spill d (some 2) hne
    obtain ⟨q1, q2, q3, q4, q5⟩ := ih (localAlloc d (some 2)).1
      (by rw [p1, p2]; exact hidx)
      (by rw [p2]; exact hlim)
      (by rw [p1]; show d.next.ptr + 1 + n ≤ BLOCK_SIZE; omega)
    refine ⟨?_, ?_, ?_, ?_, ?_⟩
    · show (allocN (localAlloc d (some 2)).1 n).next = _
      rw [q1, p1]
      show (⟨d.next.index, d.next.ptr + 1 + n⟩ : Bump) = _
      congr 1
      omega
    · show (allocN (localAlloc d (some 2)).1 n).limit = _
      rw [q2, p2]
    · show (allocN (localAlloc d (some 2)).1 n).level = _
      rw [q3, p3]
    · show (allocN (localAlloc d (some 2)).1 n).tombstone = _
      rw [q4, p4]
    · show (allocN (localAlloc d (some 2)).1 n).blocks.length = _
      rw [q5, p5]

theorem allocN_desync : ∀ (n : Nat) (d : ScopeData),
    ¬ d.next.index = d.limit.index →
    (allocN d n).next = ⟨d.next.index, d.next.ptr + n⟩ ∧
    (allocN d n).limit = d.limit ∧ (allocN d n).level = d.level ∧
    (allocN d n).tombstone = d.tombstone ∧
    (allocN d n).blocks.length = d.blocks.length := by
  intro n
  induction n with
  | zero =>
    intro d _
    refine ⟨?_, rfl, rfl, rfl, rfl⟩
    show d.next = _
    cases hb : d.next
    rfl
  | succ n ih =>
    intro d hidx
    have hne : ¬ d.next = d.limit := by
      intro he
      exact hidx (by rw [he])
    obtain ⟨p1, p2, p3, p4, p5, _⟩ := localAlloc_no_spill d (some 2) hne
    obtain ⟨q1, q2, q3, q4, q5⟩ := ih (localAlloc d (some 2)).1
      (by rw [p1, p2]; exact hidx)
    refine ⟨?_, ?_, ?_, ?_, ?_⟩
    · show (allocN (localAlloc d (some 2)).1 n).next = _
      rw [q1, p1]
      show (⟨d.next.index, d.next.ptr + 1 + n⟩ : Bump) = _
      congr 1
      omega
    · show (allocN (localAlloc d (some 2)).1 n).limit = _
      rw [q2, p2]
    · show (allocN (localAlloc d (some 2)).1 n).level = _
      rw [q3, p3]
    · show (allocN (localAlloc d (some 2)).1 n).tombstone = _
      rw [q4, p4]
    · show (allocN (localAlloc d (some 2)).1 n).blocks.length = _
      rw [q5, p5]

/-- **C1 (code bug).** The claim says the mark phase's root enumeration
visits exactly the slots of the effective live prefix, each once, in
allocation order.  The iterator advances its cursor *before* reading
(`src/handle.rs` 258–261), so on a scope with three handles in slots
(0,0)–(0,2) it visits slots (0,1), (0,2) and (0,3): it skips the first
slot of the prefix and reads the free slot at the bump pointer, which
lies outside the prefix.  This contradicts the crate's own
`tombstone_nested` test expectations. -/
theorem iter_skips_first_slot_and_reads_bump :
    visitedPositions
        (localAlloc (localAlloc (localAlloc (scopeNew scopeDataNew).1 (some 1)).1
          (some 2)).1 (some 3)).1 = [(0, 1), (0, 2), (0, 3)] ∧
    livePrefix
        (localAlloc (localAlloc (localAlloc (scopeNew scopeDataNew).1 (some 1)).1
          (some 2)).1 (some 3)).1 = [(0, 0), (0, 1), (0, 2)] ∧
    ((0, 0) ∈ livePrefix
        (localAlloc (localAlloc (localAlloc (scopeNew scopeDataNew).1 (some 1)).1
          (some 2)).1 (some 3)).1 ∧
     (0, 0) ∉ visitedPositions
        (localAlloc (localAlloc (localAlloc (scopeNew scopeDataNew).1 (some 1)).1
          (some 2)).1 (some 3)).1) ∧
    ((0, 3) ∈ visitedPositions
        (localAlloc (localAlloc (localAlloc (scopeNew scopeDataNew).1 (some 1)).1
          (some 2)).1 (some 3)).1 ∧
     (0, 3) ∉ livePrefix
        (localAlloc (localAlloc (localAlloc (scopeNew scopeDataNew).1 (some 1)).1
          (some 2)).1 (some 3)).1) := by
  refine ⟨by decide, by decide, ⟨by decide, by decide⟩, by decide, by decide⟩

set_option maxRecDepth 40000 in
/-- **C3 (code bug).** The claim says the first collection after a pop
still scans every non-null slot at or below the tombstone bound, so the
referenced cell survives.  In the `tombstone_simple` scenario (inner
scope allocates cell 1 into slot (0,0), then pops: tombstone (0,1),
`next` (0,0)), the slot (0,0) holds cell 1 and lies inside the
tombstone-extended prefix, yet the off-by-one iterator never scans it,
and the collection frees cell 1 — contradicting the crate's own
`tombstone_simple` test assertion. -/
theorem popped_slot_not_scanned_cell_freed :
    scopeDrop (scopeNew (scopeNew scopeDataNew).1).2
        (localAlloc (scopeNew (scopeNew scopeDataNew).1).1 (some 1)).1 =
      some exC3 ∧
    readSlot exC3 0 0 = some 1 ∧
    exC3.tombstone = ⟨0, 1⟩ ∧
    (0, 0) ∈ livePrefix exC3 ∧
    (0, 0) ∉ visitedPositions exC3 ∧
    gcRun { scope := exC3, heap := [(1, ⟨none, false, []⟩)], head := some 1,
            stress := false } =
      some ({ scope := exC3, heap := [], head := none, stress := false }, [1]) := by
  refine ⟨by decide, by decide, by decide, by decide, by decide, by decide⟩

set_option maxRecDepth 4000 in
/-- **C4 (code bug).** The claim says the relation "`limit` is one past
the last slot of the block `next` points into" is preserved by every
operation, including popping a child scope that allocated a new block.
In the `tombstone_next_block` scenario, popping the child restores
`next` into block 0 while `limit` stays one past block 1
(`Drop for Scope` never restores `limit`): the resulting state has
`next = (0,1)` but `limit = (1, BLOCK_SIZE)`.  Consequently the
`next == limit` check can never fire again for block 0, and
`BLOCK_SIZE` further allocations bump `next` to offset
`BLOCK_SIZE + 1` — past the end of block 0 — without a fresh block
being allocated (the block list still has 2 blocks), so a handle write
lands out of bounds. -/
theorem scope_pop_desyncs_limit :
    exC4.map (fun d => (d.next, d.tombstone, d.limit, d.blocks.length)) =
      some (⟨0, 1⟩, ⟨1, 1⟩, ⟨1, BLOCK_SIZE⟩, 2) ∧
    exC4.map
        (fun d => ((allocN d BLOCK_SIZE).next, (allocN d BLOCK_SIZE).blocks.length)) =
      some (⟨0, BLOCK_SIZE + 1⟩, 2) := by
  obtain ⟨P1, hP1⟩ : ∃ x,
      (scopeNew (localAlloc (scopeNew scopeDataNew).1 (some 1)).1).1 = x := ⟨_, rfl⟩
  obtain ⟨SC, hSC⟩ : ∃ x,
      (scopeNew (localAlloc (scopeNew scopeDataNew).1 (some 1)).1).2 = x := ⟨_, rfl⟩
  have hexc : exC4 = scopeDrop SC (allocN P1 BLOCK_SIZE) := by
    rw [← hP1, ← hSC]
    rfl
  have hP1n : P1.next = ⟨0, 1⟩ := by rw [← hP1]; decide
  have hP1l : P1.limit = ⟨0, BLOCK_SIZE⟩ := by rw [← hP1]; decide
  have hP1lev : P1.level = 2 := by rw [← hP1]; decide
  have hP1b : P1.blocks.length = 1 := by rw [← hP1]; decide
  have hSCv : SC = ⟨⟨0, 1⟩, 1⟩ := by rw [← hSC]; decide
  obtain ⟨A, hA⟩ : ∃ x, allocN P1 511 = x := ⟨_, rfl⟩
  obtain ⟨a1, a2, a3, a4, a5⟩ := allocN_same_block 511 P1
    (by rw [hP1n, hP1l]) (by rw [hP1l]) (by rw [hP1n]; decide)
  rw [hA] at a1 a2 a3 a5
  have hAn : A.next = ⟨0, BLOCK_SIZE⟩ := by rw [a1, hP1n]; decide
  have hAl : A.limit = ⟨0, BLOCK_SIZE⟩ := by rw [a2, hP1l]
  have hAlev : A.level = 2 := by rw [a3, hP1lev]
  have hAb : A.blocks.length = 1 := by rw [a5, hP1b]
  have hAe : A.next = A.limit := by rw [hAn, hAl]
  obtain ⟨B, hB⟩ : ∃ x, (localAlloc A (some 2)).1 = x := ⟨_, rfl⟩
  obtain ⟨b1, b2, b3, b4, b5, _⟩ := localAlloc_spill A (some 2) hAe
  rw [hB] at b1 b2 b3 b5
  have hBn : B.next = ⟨1, 1⟩ := by rw [b1, hAb]
  have hBl : B.limit = ⟨1, BLOCK_SIZE⟩ := by rw [b2, hAb]
  have hBlev : B.level = 2 := by rw [b3, hAlev]
  have hBb : B.blocks.length = 2 := by rw [b5, hAb]
  have hsplit : allocN P1 BLOCK_SIZE = B := by
    show allocN P1 512 = B
    rw [show (512 : Nat) = 511 + 1 from rfl, allocN_add 511 1 P1, hA]
    exact hB
  have hdrop := scopeDrop_some SC B (by rw [hBlev, hSCv])
  obtain ⟨D, hD⟩ : ∃ x,
      ({ B with tombstone := B.next, next := SC.prevNext, level := B.level - 1 } :
        ScopeData) = x := ⟨_, rfl⟩
  have hex : exC4 = some D := by
    rw [hexc, hsplit, hdrop, hD]
  have hDn : D.next = SC.prevNext := by rw [← hD]
  have hDt : D.tombstone = B.next := by rw [← hD]
  have hDl : D.limit = B.limit := by rw [← hD]
  have hDb : D.blocks.length = B.blocks.length := by rw [← hD]
  constructor
  · rw [hex]
    show some (D.next, D.tombstone, D.limit, D.blocks.length) = _
    rw [hDn, hDt, hDl, hDb, hSCv, hBn, hBl, hBb]
  · rw [hex]
    show some ((allocN D BLOCK_SIZE).next, (allocN D BLOCK_SIZE).blocks.length) = _
    obtain ⟨c1, _, _, _, c5⟩ := allocN_desync BLOCK_SIZE D
      (by rw [hDn, hDl, hSCv, hBl]; decide)
    rw [c1, c5, hDn, hDb, hSCv, hBb]
    decide

/-- Witness for C5: a two-cell cycle (`1 ⇄ 2`), rooted at `1`. -/
theorem trace_cycle_cutoff_terminates_witness :
    (unmarkedCount [(1, ⟨none, false, [2]⟩), (2, ⟨none, false, [1]⟩)] + 1 ≤ 3 ∧
     unmarkedCount [(1, ⟨none, false, [2]⟩), (2, ⟨none, false, [1]⟩)] + 1 ≤ 9) ∧
    ((∀ cl, lookupCell [(1, ⟨none, false, [2]⟩), (2, ⟨none, false, [1]⟩)] 1 =
        some cl → cl.marked = true →
      traceCell 3 [(1, ⟨none, false, [2]⟩), (2, ⟨none, false, [1]⟩)] 1 =
        ([(1, ⟨none, false, [2]⟩), (2, ⟨none, false, [1]⟩)], [])) ∧
     traceCell 3 [(1, ⟨none, false, [2]⟩), (2, ⟨none, false, [1]⟩)] 1 =
       traceCell 9 [(1, ⟨none, false, [2]⟩), (2, ⟨none, false, [1]⟩)] 1 ∧
     (markRoots [(1, ⟨none, false, [2]⟩), (2, ⟨none, false, [1]⟩)]
       [some 1, none, some 2]).2.Nodup) :=
  ⟨⟨by decide, by decide⟩,
    trace_cycle_cutoff_terminates
      [(1, ⟨none, false, [2]⟩), (2, ⟨none, false, [1]⟩)] 1
      [some 1, none, some 2] 3 9 (by decide) (by decide)⟩

theorem list_getD_set_self {α : Type} : ∀ (l : List α) (i : Nat) (v dflt : α),
    i < l.length → (l.set i v).getD i dflt = v
  | [], i, v, dflt, h => by simp at h
  | a :: t, 0, v, dflt, _ => by rfl
  | a :: t, i + 1, v, dflt, h => by
    show (t.set i v).getD i dflt = v
    exact list_getD_set_self t i v dflt (by simp at h; omega)

theorem list_getD_append_len {α : Type} : ∀ (l : List α) (x dflt : α),
    (l ++ [x]).getD l.length dflt = x
  | [], _, _ => rfl
  | _ :: t, x, dflt => list_getD_append_len t x dflt

theorem list_getD_mem {α : Type} : ∀ (l : List α) (i : Nat) (dflt : α),
    i < l.length → l.getD i dflt ∈ l
  | [], i, dflt, h => absurd h (by simp)
  | a :: t, 0, dflt, _ => by
    show a ∈ a :: t
    exact List.mem_cons_self a t
  | a :: t, i + 1, dflt, h => by
    show t.getD i dflt ∈ a :: t
    exact List.mem_cons_of_mem a (list_getD_mem t i dflt (by simp at h; omega))

theorem list_mem_set {α : Type} : ∀ (l : List α) (i : Nat) (v x : α),
    x ∈ l.set i v → x ∈ l ∨ x = v
  | [], _, _, _, h => Or.inl h
  | a :: t, 0, v, x, h => by
    have h' : x ∈ v :: t := h
    rcases List.mem_cons.mp h' with h'' | h''
    · exact Or.inr h''
    · exact Or.inl (List.mem_cons_of_mem a h'')
  | a :: t, i + 1, v, x, h => by
    have h' : x ∈ a :: t.set i v := h
    rcases List.mem_cons.mp h' with h'' | h''
    · exact Or.inl (h'' ▸ List.mem_cons_self a t)
    · rcases list_mem_set t i v x h'' with h₃ | h₃
      · exact Or.inl (List.mem_cons_of_mem a h₃)
      · exact Or.inr h₃

/-- Writing a slot in bounds and reading it back yields the written
value. -/
theorem readSlot_writeSlot_self (d : ScopeData) (s : Bump) (v : Option CellId)
    (hi : s.index < d.blocks.length)
    (hp : s.ptr < (d.blocks.getD s.index []).length) :
    readSlot (writeSlot d s v) s.index s.ptr = v := by
  show ((d.blocks.set s.index ((d.blocks.getD s.index []).set s.ptr v)).getD
      s.index []).getD s.ptr none = v
  rw [list_getD_set_self d.blocks s.index _ [] hi]
  exact list_getD_set_self _ s.ptr v none (by simpa using hp)

theorem scopeWF_elim (d : ScopeData) (hwf : ScopeWF d = true) :
    d.blocks.length = d.limit.index + 1 ∧ d.limit.ptr = BLOCK_SIZE ∧
    d.next.index = d.limit.index ∧ d.next.ptr ≤ BLOCK_SIZE ∧
    d.tombstone.index ≤ d.limit.index ∧
    ∀ b ∈ d.blocks, b.length = BLOCK_SIZE := by
  simp only [ScopeWF, Bool.and_eq_true, decide_eq_true_eq, List.all_eq_true,
    decide_eq_true_iff] at hwf
  obtain ⟨⟨⟨h₁, h₂⟩, h₃, h₄⟩, h₅, h₆⟩ := hwf
  exact ⟨h₁, h₂, h₃, h₄, h₅, h₆⟩

theorem scopeWF_intro (d : ScopeData)
    (h₁ : d.blocks.length = d.limit.index + 1) (h₂ : d.limit.ptr = BLOCK_SIZE)
    (h₃ : d.next.index = d.limit.index) (h₄ : d.next.ptr ≤ BLOCK_SIZE)
    (h₅ : d.tombstone.index ≤ d.limit.index)
    (h₆ : ∀ b ∈ d.blocks, b.length = BLOCK_SIZE) : ScopeWF d = true := by
  simp only [ScopeWF, Bool.and_eq_true, decide_eq_true_eq, List.all_eq_true,
    decide_eq_true_iff]
  exact ⟨⟨⟨h₁, h₂⟩, h₃, h₄⟩, h₅, h₆⟩

theorem bump_ext (a b : Bump) (h1 : a.index = b.index) (h2 : a.ptr = b.ptr) :
    a = b := by
  cases a
  cases b
  cases h1
  cases h2
  rfl

/-- `Local::alloc` from a well-formed scope data: the handed-out slot
reads back the stored pointer, well-formedness is preserved, `next`
ends up one past the slot, and the tombstone and level are
untouched. -/
theorem localAlloc_read (d : ScopeData) (v : Option CellId)
    (hwf : ScopeWF d = true) :
    readSlot (localAlloc d v).1 (localAlloc d v).2.index (localAlloc d v).2.ptr =
      v ∧
    ScopeWF (localAlloc d v).1 = true ∧
    (localAlloc d v).1.next =
      ⟨(localAlloc d v).2.index, (localAlloc d v).2.ptr + 1⟩ ∧
    (localAlloc d v).1.level = d.level ∧
    (localAlloc d v).1.tombstone = d.tombstone ∧
    (localAlloc d v).2.index < (localAlloc d v).1.blocks.length ∧
    (localAlloc d v).2.ptr <
      ((localAlloc d v).1.blocks.getD (localAlloc d v).2.index []).length := by
  obtain ⟨h₁, h₂, h₃, h₄, h₅, h₆⟩ := scopeWF_elim d hwf
  by_cases he : d.next = d.limit
  case pos =>
    unfold localAlloc
    rw [alloc_handle_spill d he]
    refine ⟨?_, ?_, rfl, rfl, rfl, ?_, ?_⟩
    · show readSlot
        (writeSlot { allocBlock d with next := ⟨d.blocks.length, 1⟩ }
          ⟨d.blocks.length, 0⟩ v) d.blocks.length 0 = v
      apply readSlot_writeSlot_self
      · show d.blocks.length < (d.blocks ++ [List.replicate BLOCK_SIZE none]).length
        simp
      · show 0 < ((d.blocks ++ [List.replicate BLOCK_SIZE none]).getD
          d.blocks.length []).length
        rw [list_getD_append_len]
        simp only [List.length_replicate]
        decide
    · apply scopeWF_intro
      · simp [writeSlot, allocBlock]
      · simp [writeSlot, allocBlock]
      · simp [writeSlot, allocBlock]
      · show 1 ≤ BLOCK_SIZE
        decide
      · simp [writeSlot, allocBlock]
        omega
      · intro b hb
        have hb' : b ∈ (d.blocks ++ [List.replicate BLOCK_SIZE none]).set
            d.blocks.length
            (((d.blocks ++ [List.replicate BLOCK_SIZE none]).getD
              d.blocks.length []).set 0 v) := hb
        rcases list_mem_set _ _ _ _ hb' with hm | heq
        · rcases List.mem_append.mp hm with hm' | hm'
          · exact h₆ b hm'
          · rw [List.mem_singleton.mp hm']
            simp
        · rw [heq, List.length_set, list_getD_append_len d.blocks _ []]
          simp
    · show d.blocks.length <
        ((d.blocks ++ [List.replicate BLOCK_SIZE none]).set d.blocks.length
          (((d.blocks ++ [List.replicate BLOCK_SIZE none]).getD
            d.blocks.length []).set 0 v)).length
      simp
    · show 0 <
        (((d.blocks ++ [List.replicate BLOCK_SIZE none]).set d.blocks.length
          (((d.blocks ++ [List.replicate BLOCK_SIZE none]).getD
            d.blocks.length []).set 0 v)).getD d.blocks.length []).length
      rw [list_getD_set_self _ _ _ _ (by simp), List.length_set,
        list_getD_append_len]
      simp only [List.length_replicate]
      decide
  case neg =>
    unfold localAlloc
    rw [alloc_handle_no_spill d he]
    have hptr : d.next.ptr < BLOCK_SIZE := by
      rcases Nat.lt_or_ge d.next.ptr BLOCK_SIZE with h | h
      · exact h
      · exact absurd (bump_ext d.next d.limit h₃
          (by rw [Nat.le_antisymm h₄ h, h₂])) he
    have hidx : d.next.index < d.blocks.length := by omega
    have hblen : (d.blocks.getD d.next.index []).length = BLOCK_SIZE :=
      h₆ _ (list_getD_mem d.blocks d.next.index [] hidx)
    refine ⟨?_, ?_, rfl, rfl, rfl, ?_, ?_⟩
    · show readSlot
        (writeSlot { d with next := ⟨d.next.index, d.next.ptr + 1⟩ } d.next v)
        d.next.index d.next.ptr = v
      apply readSlot_writeSlot_self
      · exact hidx
      · show d.next.ptr < (d.blocks.getD d.next.index []).length
        omega
    · apply scopeWF_intro
      · simpa [writeSlot] using h₁
      · simpa [writeSlot] using h₂
      · simpa [writeSlot] using h₃
      · show d.next.ptr + 1 ≤ BLOCK_SIZE
        omega
      · simpa [writeSlot] using h₅
      · intro b hb
        have hb' : b ∈ d.blocks.set d.next.index
            ((d.blocks.getD d.next.index []).set d.next.ptr v) := hb
        rcases list_mem_set _ _ _ _ hb' with hm | heq
        · exact h₆ b hm
        · rw [heq, List.length_set]
          exact hblen
    · show d.next.index < (d.blocks.set d.next.index
        ((d.blocks.getD d.next.index []).set d.next.ptr v)).length
      rw [List.length_set]
      exact hidx
    · show d.next.ptr < ((d.blocks.set d.next.index
        ((d.blocks.getD d.next.index []).set d.next.ptr v)).getD
          d.next.index []).length
      rw [list_getD_set_self _ _ _ _ hidx, List.length_set]
      omega

/-- `free_unused_blocks` when the used blocks are in bounds: keep the
blocks up to the last used one. -/
theorem free_unused_blocks_some (d : ScopeData)
    (hb : max d.tombstone.index d.next.index < d.blocks.length) :
    free_unused_blocks d =
      some { d with
        blocks := d.blocks.take (max d.tombstone.index d.next.index + 1) } := by
  unfold free_unused_blocks
  rw [if_pos (by omega :
    max d.tombstone.index d.next.index + 1 ≤ d.blocks.length)]

/-- `gc` when the scope data's used blocks are in bounds: mark, sweep,
truncate the block list; the scope's bumps and level are untouched. -/
theorem gcRun_some (st : GcState)
    (hb : max st.scope.tombstone.index st.scope.next.index <
      st.scope.blocks.length) :
    gcRun st = some
      ({ st with
          scope := { st.scope with
            blocks := st.scope.blocks.take
              (max st.scope.tombstone.index st.scope.next.index + 1) },
          heap := (sweep (markPhase st.scope st.heap).1 st.head).1,
          head := (sweep (markPhase st.scope st.heap).1 st.head).2.1 },
        (sweep (markPhase st.scope st.heap).1 st.head).2.2) := by
  unfold gcRun
  rw [free_unused_blocks_some st.scope hb]

theorem isActive_eq_true_iff (sc : Scope) (d : ScopeData) :
    isActive sc d = true ↔ d.level = sc.level + 1 := by
  simp [isActive]

/-- **C9** (counterexample): running `free_unused_blocks` on a scope
data whose block list holds only one block — the fresh `ScopeData` —
is NOT a diagnosed fatal contract violation: `drain(1..)` on a
one-element vector is a plain no-op, the call returns normally and the
block is kept.  (The fatal case of `Vec::drain` — a range start beyond
the vector's length — needs `max(tombstone.index, next.index) + 1 >
blocks.len()`, which a one-block list alone does not give.) -/
theorem free_unused_blocks_single_block_returns :
    scopeDataNew.blocks.length = 1 ∧
    free_unused_blocks scopeDataNew = some scopeDataNew := by
  constructor
  · rfl
  · rfl

/-- **C9** (amended): whenever the blocks of the tombstone and `next`
bumps exist — in particular in any state the scope discipline can
reach, including a block list of length one — `free_unused_blocks`
returns normally and keeps exactly the blocks up to the last used one;
it never empties the block list. -/
theorem free_unused_blocks_in_bounds_no_op (d : ScopeData)
    (hb : max d.tombstone.index d.next.index < d.blocks.length) :
    (free_unused_blocks d).isSome = true ∧
    ∀ d', free_unused_blocks d = some d' →
      d'.blocks.length = max d.tombstone.index d.next.index + 1 ∧
      d'.blocks ≠ [] := by
  rw [free_unused_blocks_some d hb]
  refine ⟨rfl, ?_⟩
  intro d' hd'
  injection hd' with h
  subst h
  constructor
  · show (d.blocks.take (max d.tombstone.index d.next.index + 1)).length = _
    rw [List.length_take]
    omega
  · intro hnil
    have hnil' : d.blocks.take (max d.tombstone.index d.next.index + 1) = [] :=
      hnil
    have hlen := congrArg List.length hnil'
    rw [List.length_take, List.length_nil] at hlen
    omega

/-- Witness for C9's amended claim: the fresh one-block scope data. -/
theorem free_unused_blocks_in_bounds_no_op_witness :
    (max scopeDataNew.tombstone.index scopeDataNew.next.index <
      scopeDataNew.blocks.length) ∧
    ((free_unused_blocks scopeDataNew).isSome = true ∧
      ∀ d', free_unused_blocks scopeDataNew = some d' →
        d'.blocks.length =
          max scopeDataNew.tombstone.index scopeDataNew.next.index + 1 ∧
        d'.blocks ≠ []) :=
  ⟨by decide, free_unused_blocks_in_bounds_no_op scopeDataNew (by decide)⟩

/-- **C7**: allocating through a `Scope` parent panics exactly when
the scope is not the innermost active one — the scope data's level
must equal the scope's recorded level plus one (a stress-mode
collection first, which does not move the level); when the scope is
innermost the assert's failure branch is unreachable and the
allocation proceeds: the new cell carries the old head as `prev`, an
unset mark bit and the value's fields, and becomes the new head. -/
theorem alloc_asserts_innermost (sc : Scope) (st : GcState)
    (fields : List CellId)
    (hb : max st.scope.tombstone.index st.scope.next.index <
      st.scope.blocks.length) :
    (allocViaScope sc st fields = none ↔ ¬ st.scope.level = sc.level + 1) ∧
    (st.scope.level = sc.level + 1 →
      ∃ st₁ : GcState, st₁.scope.level = st.scope.level ∧
        allocViaScope sc st fields = some (allocatorAlloc st₁ fields) ∧
        (allocatorAlloc st₁ fields).1.head = some (freshId st₁.heap) ∧
        lookupCell (allocatorAlloc st₁ fields).1.heap (freshId st₁.heap) =
          some ⟨st₁.head, false, fields⟩) := by
  obtain ⟨st₁, hlev, heq⟩ : ∃ st₁ : GcState,
      st₁.scope.level = st.scope.level ∧
      allocViaScope sc st fields =
        (if isActive sc st₁.scope then some (allocatorAlloc st₁ fields)
         else none) := by
    cases hst : st.stress
    · exact ⟨st, rfl, by unfold allocViaScope; rw [hst]; rfl⟩
    · refine ⟨{ st with
          scope := { st.scope with
            blocks := st.scope.blocks.take
              (max st.scope.tombstone.index st.scope.next.index + 1) },
          heap := (sweep (markPhase st.scope st.heap).1 st.head).1,
          head := (sweep (markPhase st.scope st.heap).1 st.head).2.1 },
        rfl, ?_⟩
      unfold allocViaScope
      rw [gcRun_some st hb, hst]
      rfl
  rw [heq]
  by_cases hl : st.scope.level = sc.level + 1
  · rw [(isActive_eq_true_iff sc st₁.scope).mpr (by rw [hlev]; exact hl)]
    refine ⟨by simp [hl], fun _ => ⟨st₁, hlev, by simp, rfl, ?_⟩⟩
    simp [allocatorAlloc, lookupCell]
  · have : isActive sc st₁.scope = false := by
      rcases Bool.eq_false_or_eq_true (isActive sc st₁.scope) with h | h
      · exact absurd (by rw [← hlev]; exact (isActive_eq_true_iff _ _).mp h) hl
      · exact h
    rw [this]
    exact ⟨by simp [hl], fun h => absurd h hl⟩

/-- Witness for C7: the innermost scope of a one-scope state; the
allocation proceeds. -/
theorem alloc_asserts_innermost_witness :
    (max exC7.scope.tombstone.index exC7.scope.next.index <
      exC7.scope.blocks.length) ∧
    ((allocViaScope exC7sc exC7 [] = none ↔
        ¬ exC7.scope.level = exC7sc.level + 1) ∧
      (exC7.scope.level = exC7sc.level + 1 →
        ∃ st₁ : GcState, st₁.scope.level = exC7.scope.level ∧
          allocViaScope exC7sc exC7 [] = some (allocatorAlloc st₁ []) ∧
          (allocatorAlloc st₁ []).1.head = some (freshId st₁.heap) ∧
          lookupCell (allocatorAlloc st₁ []).1.heap (freshId st₁.heap) =
            some ⟨st₁.head, false, []⟩)) :=
  ⟨by decide, alloc_asserts_innermost exC7sc exC7 [] (by decide)⟩

/-- **C10**: allocation routed with the top-level `Gc` itself as
parent always hits the assert — `ParentScope for Gc` answers `false`
from `is_active` regardless of the state (also under stress, where a
collection runs first); `LocalMutOpt::new` with value `None` on the
other hand never calls `alloc`: it touches neither the heap nor the
allocator head and just stores a null pointer in a fresh handle slot,
which reads back as null. -/
theorem gc_parent_alloc_always_fails (st : GcState) (fields : List CellId)
    (hwf : ScopeWF st.scope = true) :
    allocViaGc st fields = none ∧
    (localMutOptNewGcNone st).1.heap = st.heap ∧
    (localMutOptNewGcNone st).1.head = st.head ∧
    readSlot (localMutOptNewGcNone st).1.scope
      (localMutOptNewGcNone st).2.index (localMutOptNewGcNone st).2.ptr =
      none := by
  obtain ⟨h₁, h₂, h₃, h₄, h₅, h₆⟩ := scopeWF_elim _ hwf
  refine ⟨?_, rfl, rfl, ?_⟩
  · cases hst : st.stress
    · unfold allocViaGc
      rw [hst]
      rfl
    · unfold allocViaGc
      rw [gcRun_some st (by omega), hst]
      rfl
  · obtain ⟨hr, _, _, _, _, _, _⟩ := localAlloc_read st.scope none hwf
    exact hr

set_option maxRecDepth 10000 in
/-- Witness for C10: a stressed state with a fresh scope data. -/
theorem gc_parent_alloc_always_fails_witness :
    ScopeWF exC10.scope = true ∧
    (allocViaGc exC10 [] = none ∧
      (localMutOptNewGcNone exC10).1.heap = exC10.heap ∧
      (localMutOptNewGcNone exC10).1.head = exC10.head ∧
      readSlot (localMutOptNewGcNone exC10).1.scope
        (localMutOptNewGcNone exC10).2.index
        (localMutOptNewGcNone exC10).2.ptr = none) :=
  ⟨by decide, gc_parent_alloc_always_fails exC10 [] (by decide)⟩

/-- **C6**: `EscapeScope::new` reserves the parent slot *before*
pushing the child frame: the child scope records the parent's level
and a starting bump one past the reserved slot, so the slot lies below
the child's starting bump; popping the child restores `next` to
exactly that starting bump, so the slot survives the pop; the first
`escape(v)` overwrites the reserved slot with `v`'s cell pointer,
marks the escape scope used and returns the reserved slot, which reads
back `v`'s pointer; a second `escape` on the same escape scope is
diagnosed as fatal. -/
theorem escape_scope_one_shot (d dX : ScopeData) (v w : Option CellId)
    (hwf : ScopeWF d = true) :
    (escapeScopeNew d).2.scope.level = d.level ∧
    (escapeScopeNew d).1.level = d.level + 1 ∧
    (escapeScopeNew d).2.escaped = false ∧
    (escapeScopeNew d).2.scope.prevNext =
      ⟨(escapeScopeNew d).2.localSlot.index,
        (escapeScopeNew d).2.localSlot.ptr + 1⟩ ∧
    (scopeDrop (escapeScopeNew d).2.scope (escapeScopeNew d).1).map
        ScopeData.next =
      some ⟨(escapeScopeNew d).2.localSlot.index,
        (escapeScopeNew d).2.localSlot.ptr + 1⟩ ∧
    escape (escapeScopeNew d).2 dX v =
      some ({ (escapeScopeNew d).2 with escaped := true },
        writeSlot dX (escapeScopeNew d).2.localSlot v,
        (escapeScopeNew d).2.localSlot) ∧
    readSlot (writeSlot (escapeScopeNew d).1 (escapeScopeNew d).2.localSlot v)
      (escapeScopeNew d).2.localSlot.index
      (escapeScopeNew d).2.localSlot.ptr = v ∧
    escape { (escapeScopeNew d).2 with escaped := true } dX w = none := by
  obtain ⟨_, _, hnext, hlevel, _, hbi, hbp⟩ := localAlloc_read d none hwf
  refine ⟨?_, ?_, rfl, ?_, ?_, rfl, ?_, rfl⟩
  · show (localAlloc d none).1.level = d.level
    exact hlevel
  · show (localAlloc d none).1.level + 1 = d.level + 1
    rw [hlevel]
  · show (localAlloc d none).1.next = _
    exact hnext
  · show (scopeDrop ⟨(localAlloc d none).1.next, (localAlloc d none).1.level⟩
        { (localAlloc d none).1 with
          level := (localAlloc d none).1.level + 1 }).map ScopeData.next = _
    rw [scopeDrop_some _ _ rfl]
    show some (localAlloc d none).1.next = _
    rw [hnext]
    rfl
  · show readSlot
      (writeSlot { (localAlloc d none).1 with
        level := (localAlloc d none).1.level + 1 }
        (localAlloc d none).2 v)
      (localAlloc d none).2.index (localAlloc d none).2.ptr = v
    exact readSlot_writeSlot_self _ _ v hbi hbp

set_option maxRecDepth 10000 in
/-- Witness for C6: the fresh scope data; cell 1 escapes. -/
theorem escape_scope_one_shot_witness :
    ScopeWF scopeDataNew = true ∧
    ((escapeScopeNew scopeDataNew).2.scope.level = scopeDataNew.level ∧
     (escapeScopeNew scopeDataNew).1.level = scopeDataNew.level + 1 ∧
     (escapeScopeNew scopeDataNew).2.escaped = false ∧
     (escapeScopeNew scopeDataNew).2.scope.prevNext =
       ⟨(escapeScopeNew scopeDataNew).2.localSlot.index,
         (escapeScopeNew scopeDataNew).2.localSlot.ptr + 1⟩ ∧
     (scopeDrop (escapeScopeNew scopeDataNew).2.scope
         (escapeScopeNew scopeDataNew).1).map ScopeData.next =
       some ⟨(escapeScopeNew scopeDataNew).2.localSlot.index,
         (escapeScopeNew scopeDataNew).2.localSlot.ptr + 1⟩ ∧
     escape (escapeScopeNew scopeDataNew).2 scopeDataNew (some 1) =
       some ({ (escapeScopeNew scopeDataNew).2 with escaped := true },
         writeSlot scopeDataNew (escapeScopeNew scopeDataNew).2.localSlot
           (some 1),
         (escapeScopeNew scopeDataNew).2.localSlot) ∧
     readSlot (writeSlot (escapeScopeNew scopeDataNew).1
         (escapeScopeNew scopeDataNew).2.localSlot (some 1))
       (escapeScopeNew scopeDataNew).2.localSlot.index
       (escapeScopeNew scopeDataNew).2.localSlot.ptr = some 1 ∧
     escape { (escapeScopeNew scopeDataNew).2 with escaped := true }
       scopeDataNew (some 2) = none) :=
  ⟨by decide, escape_scope_one_shot scopeDataNew scopeDataNew (some 1) (some 2)
    (by decide)⟩

theorem lookup_eq_none_of_not_mem (h : Heap) (c : CellId)
    (hc : c ∉ hkeys h) : lookupCell h c = none := by
  cases hl : lookupCell h c with
  | none => rfl
  | some cl => exact absurd (mem_hkeys_of_lookup h c cl hl) hc

theorem marks_eq_false_of_not_mem (h : Heap) (c : CellId)
    (hc : c ∉ hkeys h) : marks h c = false := by
  rw [marks, lookup_eq_none_of_not_mem h c hc]

theorem unmarkedCount_le_length : ∀ h : Heap, unmarkedCount h ≤ h.length
  | [] => Nat.le_refl 0
  | (_, cl) :: t => by
    simp only [unmarkedCount, List.length_cons]
    cases hm : cl.marked
    · rw [if_neg (by simp)]
      exact Nat.succ_le_succ (unmarkedCount_le_length t)
    · rw [if_pos rfl]
      exact Nat.le_succ_of_le (unmarkedCount_le_length t)

theorem cell_ext (a b : Cell) (h1 : a.prev = b.prev) (h2 : a.marked = b.marked)
    (h3 : a.fields = b.fields) : a = b := by
  cases a
  cases b
  cases h1
  cases h2
  cases h3
  rfl

theorem scopeData_ext (a b : ScopeData) (h1 : a.next = b.next)
    (h2 : a.tombstone = b.tombstone) (h3 : a.limit = b.limit)
    (h4 : a.level = b.level) (h5 : a.blocks = b.blocks) : a = b := by
  cases a
  cases b
  cases h1
  cases h2
  cases h3
  cases h4
  cases h5
  rfl

theorem gcState_ext (a b : GcState) (h1 : a.scope = b.scope)
    (h2 : a.heap = b.heap) (h3 : a.head = b.head) (h4 : a.stress = b.stress) :
    a = b := by
  cases a
  cases b
  cases h1
  cases h2
  cases h3
  cases h4
  rfl

/-- Two heaps with the same key sequence (duplicate-free) and the same
lookups are the same association list. -/
theorem heap_ext : ∀ (h₁ h₂ : Heap), hkeys h₁ = hkeys h₂ →
    (hkeys h₁).Nodup → (∀ c, lookupCell h₁ c = lookupCell h₂ c) → h₁ = h₂ := by
  intro h₁
  induction h₁ with
  | nil =>
    intro h₂ hk _ _
    cases h₂ with
    | nil => rfl
    | cons e t => simp [hkeys] at hk
  | cons e t ih =>
    intro h₂ hk hnd hlk
    obtain ⟨k, cl⟩ := e
    cases h₂ with
    | nil => simp [hkeys] at hk
    | cons e₂ t₂ =>
      obtain ⟨k₂, cl₂⟩ := e₂
      simp only [hkeys, List.map_cons, List.cons.injEq] at hk
      obtain ⟨hkk, hkt⟩ := hk
      subst hkk
      have h1 := hlk k
      simp only [lookupCell, if_pos rfl] at h1
      obtain rfl := Option.some.inj h1
      have hnd' := List.nodup_cons.mp
        (show (k :: hkeys t).Nodup from hnd)
      have htl : ∀ c, lookupCell t c = lookupCell t₂ c := by
        intro c
        by_cases hc : c = k
        · subst hc
          rw [lookup_eq_none_of_not_mem t c hnd'.1,
            lookup_eq_none_of_not_mem t₂ c (by
              show c ∉ hkeys t₂
              rw [show hkeys t₂ = hkeys t from hkt.symm]
              exact hnd'.1)]
        · have h2 := hlk c
          simp only [lookupCell,
            if_neg (show ¬ k = c from fun hh => hc hh.symm)] at h2
          exact h2
      rw [ih t₂ hkt hnd'.2 htl]

theorem marks_markList_eq (ms : List CellId) (h : Heap) (x : CellId) :
    marks (markList h ms) x =
      (marks h x || (decide (x ∈ ms) && decide (x ∈ hkeys h))) := by
  rw [marks, lookup_markList]
  cases hl : lookupCell h x with
  | none =>
    have h2 : marks h x = false := by rw [marks, hl]
    have h3 : x ∉ hkeys h := by
      intro hm
      obtain ⟨cl, hcl⟩ := lookup_of_mem_hkeys h x hm
      rw [hcl] at hl
      cases hl
    simp [h2, h3]
  | some cl =>
    have h2 : marks h x = cl.marked := by rw [marks, hl]
    have h3 : x ∈ hkeys h := mem_hkeys_of_lookup h x cl hl
    simp [h2, h3]

theorem marks_markList_mono (ms : List CellId) (h : Heap) (x : CellId)
    (hm : marks h x = true) : marks (markList h ms) x = true := by
  rw [marks_markList_eq, hm]
  rfl

theorem mem_of_marks_markList (ms : List CellId) (h : Heap) (x : CellId)
    (h1 : marks (markList h ms) x = true) (h2 : marks h x = false) :
    x ∈ ms := by
  rw [marks_markList_eq, h2] at h1
  simp only [Bool.false_or, Bool.and_eq_true, decide_eq_true_eq] at h1
  exact h1.1

theorem list_getD_take {α : Type} : ∀ (l : List α) (n i : Nat) (dflt : α),
    i < n → (l.take n).getD i dflt = l.getD i dflt
  | [], 0, i, _, h => absurd h (Nat.not_lt_zero i)
  | [], _ + 1, _, _, _ => rfl
  | _ :: _, 0, i, _, h => absurd h (Nat.not_lt_zero i)
  | _ :: _, _ + 1, 0, _, _ => rfl
  | _ :: t, n + 1, i + 1, dflt, h =>
    list_getD_take t n i dflt (Nat.lt_of_succ_lt_succ h)

/-- `chainWF` pins the `prev` pointer of every chain cell (to the next
chain entry): two heaps carrying the same well-formed chain agree on
the chain cells' `prev` fields. -/
theorem chainWF_pins : ∀ (l : List CellId) (h₁ h₂ : Heap)
    (cur : Option CellId), chainWF h₁ cur l = true → chainWF h₂ cur l = true →
    ∀ c ∈ l, ∀ cl₁ cl₂, lookupCell h₁ c = some cl₁ →
      lookupCell h₂ c = some cl₂ → cl₁.prev = cl₂.prev := by
  intro l
  induction l with
  | nil =>
    intro _ _ _ _ _ c hc
    cases hc
  | cons i t ih =>
    intro h₁ h₂ cur hw₁ hw₂ c hc cl₁ cl₂ hl₁ hl₂
    cases cur with
    | none => cases hw₁
    | some c₀ =>
      simp only [chainWF, Bool.and_eq_true, decide_eq_true_eq] at hw₁ hw₂
      obtain ⟨hci, hrest₁⟩ := hw₁
      obtain ⟨_, hrest₂⟩ := hw₂
      subst hci
      cases hd₁ : lookupCell h₁ c₀ with
      | none =>
        rw [hd₁] at hrest₁
        exact Bool.noConfusion (show false = true from hrest₁)
      | some d₁ =>
        cases hd₂ : lookupCell h₂ c₀ with
        | none =>
          rw [hd₂] at hrest₂
          exact Bool.noConfusion (show false = true from hrest₂)
        | some d₂ =>
          rw [hd₁] at hrest₁
          rw [hd₂] at hrest₂
          have hr₁ : chainWF h₁ d₁.prev t = true := hrest₁
          have hr₂ : chainWF h₂ d₂.prev t = true := hrest₂
          have hpp : d₁.prev = d₂.prev := by
            cases t with
            | nil =>
              cases hp₁ : d₁.prev with
              | none =>
                cases hp₂ : d₂.prev with
                | none => rfl
                | some y =>
                  rw [hp₂] at hr₂
                  exact Bool.noConfusion (show false = true from hr₂)
              | some y =>
                rw [hp₁] at hr₁
                exact Bool.noConfusion (show false = true from hr₁)
            | cons j t' =>
              cases hp₁ : d₁.prev with
              | none =>
                rw [hp₁] at hr₁
                exact Bool.noConfusion (show false = true from hr₁)
              | some y =>
                cases hp₂ : d₂.prev with
                | none =>
                  rw [hp₂] at hr₂
                  exact Bool.noConfusion (show false = true from hr₂)
                | some z =>
                  rw [hp₁] at hr₁
                  rw [hp₂] at hr₂
                  simp only [chainWF, Bool.and_eq_true,
                    decide_eq_true_eq] at hr₁ hr₂
                  rw [hr₁.1, hr₂.1]
          rcases List.mem_cons.mp hc with rfl | hct
          · rw [hd₁] at hl₁
            rw [hd₂] at hl₂
            obtain rfl := Option.some.inj hl₁
            obtain rfl := Option.some.inj hl₂
            exact hpp
          · exact ih h₁ h₂ d₁.prev hr₁ (by rw [hpp]; exact hr₂) c hct cl₁ cl₂
              hl₁ hl₂

theorem scopeIterEnd_fst_le (d : ScopeData) :
    (scopeIterEnd d).1 ≤ max d.tombstone.index d.next.index := by
  cases hcmp : compare d.tombstone.index d.next.index with
  | eq =>
    unfold scopeIterEnd
    rw [hcmp]
    exact Nat.le_max_right _ _
  | gt =>
    unfold scopeIterEnd
    rw [hcmp]
    exact Nat.le_max_left _ _
  | lt =>
    unfold scopeIterEnd
    rw [hcmp]
    exact Nat.le_max_right _ _

theorem scopeIterEnd_snd_le (d : ScopeData) (h1 : d.tombstone.ptr ≤ BLOCK_SIZE)
    (h2 : d.next.ptr ≤ BLOCK_SIZE) : (scopeIterEnd d).2 ≤ BLOCK_SIZE := by
  cases hcmp : compare d.tombstone.index d.next.index with
  | eq =>
    unfold scopeIterEnd
    rw [hcmp]
    show max d.tombstone.ptr d.next.ptr ≤ BLOCK_SIZE
    omega
  | gt =>
    unfold scopeIterEnd
    rw [hcmp]
    exact h1
  | lt =>
    unfold scopeIterEnd
    rw [hcmp]
    exact h2

/-- The root enumeration only dereferences slots of blocks up to the
end block, so two scope datas with the same bumps that agree on those
blocks enumerate identically. -/
theorem iterRun_congr (d d' : ScopeData)
    (hend : scopeIterEnd d' = scopeIterEnd d)
    (hb : ∀ i, i ≤ (scopeIterEnd d).1 →
      d'.blocks.getD i [] = d.blocks.getD i [])
    (he2 : (scopeIterEnd d).2 ≤ BLOCK_SIZE) :
    ∀ (fuel : Nat) (pos : Nat × Nat),
      (pos.1 < (scopeIterEnd d).1 ∨
        (pos.1 = (scopeIterEnd d).1 ∧ pos.2 ≤ (scopeIterEnd d).2)) →
      iterRun d' fuel pos = iterRun d fuel pos := by
  intro fuel
  induction fuel with
  | zero =>
    intro pos _
    rfl
  | succ g ih =>
    intro pos hpos
    simp only [iterRun, hend]
    by_cases hstop : pos = scopeIterEnd d
    · rw [if_pos hstop, if_pos hstop]
    · rw [if_neg hstop, if_neg hstop]
      by_cases hbs : pos.2 = BLOCK_SIZE
      · have hlt : pos.1 < (scopeIterEnd d).1 := by
          rcases hpos with h | ⟨h1, h2⟩
          · exact h
          · exfalso
            apply hstop
            have h3 : pos.2 = (scopeIterEnd d).2 := by omega
            exact Prod.ext h1 h3
        have hread : readSlot d' (pos.1 + 1) 0 = readSlot d (pos.1 + 1) 0 := by
          unfold readSlot
          rw [hb (pos.1 + 1) (by omega)]
        have hinv : pos.1 + 1 < (scopeIterEnd d).1 ∨
            (pos.1 + 1 = (scopeIterEnd d).1 ∧ 0 ≤ (scopeIterEnd d).2) := by
          omega
        rw [if_pos hbs, if_pos hbs, hread, ih (pos.1 + 1, 0) hinv]
      · have hle : pos.1 ≤ (scopeIterEnd d).1 := by
          rcases hpos with h | ⟨h1, _⟩
          · omega
          · omega
        have hread : readSlot d' pos.1 (pos.2 + 1) =
            readSlot d pos.1 (pos.2 + 1) := by
          unfold readSlot
          rw [hb pos.1 hle]
        have hinv : pos.1 < (scopeIterEnd d).1 ∨
            (pos.1 = (scopeIterEnd d).1 ∧ pos.2 + 1 ≤ (scopeIterEnd d).2) := by
          rcases hpos with h | ⟨h1, h2⟩
          · exact Or.inl h
          · have hne : pos.2 ≠ (scopeIterEnd d).2 := by
              intro he
              exact hstop (Prod.ext h1 he)
            exact Or.inr ⟨h1, by omega⟩
        rw [if_neg hbs, if_neg hbs, hread, ih (pos.1, pos.2 + 1) hinv]

theorem rootValues_congr (d d' : ScopeData)
    (hend : scopeIterEnd d' = scopeIterEnd d)
    (hb : ∀ i, i ≤ (scopeIterEnd d).1 →
      d'.blocks.getD i [] = d.blocks.getD i [])
    (he2 : (scopeIterEnd d).2 ≤ BLOCK_SIZE) : rootValues d' = rootValues d := by
  unfold rootValues scopeIter
  rw [hend]
  rw [iterRun_congr d d' hend hb he2 _ (0, 0) ?_]
  rcases Nat.eq_zero_or_pos (scopeIterEnd d).1 with h | h
  · exact Or.inr ⟨h.symm, Nat.zero_le _⟩
  · exact Or.inl h

/-- Truncating the block list to the blocks the bumps can reach does
not change the enumerated roots. -/
theorem rootValues_take (d : ScopeData)
    (he2 : (scopeIterEnd d).2 ≤ BLOCK_SIZE) :
    rootValues { d with
      blocks := d.blocks.take (max d.tombstone.index d.next.index + 1) } =
      rootValues d := by
  apply rootValues_congr
  · rfl
  · intro i hi
    show (d.blocks.take (max d.tombstone.index d.next.index + 1)).getD i [] =
      d.blocks.getD i []
    apply list_getD_take
    have := scopeIterEnd_fst_le d
    omega
  · exact he2

theorem marks_mono_traceCell (fuel : Nat) (h : Heap) (c x : CellId)
    (hm : marks h x = true) : marks (traceCell fuel h c).1 x = true := by
  obtain ⟨s1, _, _⟩ := traceCell_spec fuel h c
  rw [s1]
  exact marks_markList_mono _ h x hm

theorem marks_mono_foldTrace (g : Nat) (fs : List CellId) (h : Heap)
    (x : CellId) (hm : marks h x = true) :
    marks (foldTrace (traceCell g) h fs).1 x = true := by
  obtain ⟨s1, _, _⟩ := foldTrace_spec (traceCell g) (traceCell_spec g) fs h
  rw [s1]
  exact marks_markList_mono _ h x hm

theorem traceCell_dispatches (fuel : Nat) (h : Heap) (c : CellId) (cl : Cell)
    (hf : 1 ≤ fuel) (hlk : lookupCell h c = some cl) (hm : cl.marked = false) :
    c ∈ (traceCell fuel h c).2 := by
  cases fuel with
  | zero => cases hf
  | succ g =>
    rw [traceCell_unmarked g h c cl hlk (by simp [hm])]
    exact List.mem_cons_self _ _

/-- Closure of the mark bits over a trace fold: after folding a trace
over the fields of a freshly marked cell, every field that names an
allocated cell ends up marked, and the closure property of nested
dispatch logs lifts. -/
theorem foldTrace_closure (g : Nat)
    (IH : ∀ (h : Heap) (c : CellId), unmarkedCount h + 1 ≤ g →
      ∀ p ∈ (traceCell g h c).2, ∀ cl, lookupCell h p = some cl →
        ∀ f ∈ cl.fields, f ∈ hkeys h → marks (traceCell g h c).1 f = true) :
    ∀ (fs : List CellId) (h : Heap), unmarkedCount h + 1 ≤ g →
      (∀ f ∈ fs, f ∈ hkeys h →
        marks (foldTrace (traceCell g) h fs).1 f = true) ∧
      (∀ p ∈ (foldTrace (traceCell g) h fs).2, ∀ cl,
        lookupCell h p = some cl → ∀ f ∈ cl.fields, f ∈ hkeys h →
          marks (foldTrace (traceCell g) h fs).1 f = true) := by
  intro fs
  induction fs with
  | nil =>
    intro h _
    exact ⟨fun f hf => absurd hf (List.not_mem_nil f),
      fun p hp => absurd hp (List.not_mem_nil p)⟩
  | cons f₀ fs ihf =>
    intro h hcnt
    obtain ⟨s1, _, _⟩ := traceCell_spec g h f₀
    have hkR1 : hkeys (traceCell g h f₀).1 = hkeys h := by
      rw [s1, hkeys_markList]
    have hcnt₁ : unmarkedCount (traceCell g h f₀).1 + 1 ≤ g := by
      rw [s1]
      have := unmarkedCount_markList_le (traceCell g h f₀).2 h
      omega
    obtain ⟨Ia, Ib⟩ := ihf (traceCell g h f₀).1 hcnt₁
    constructor
    · intro f hf hfk
      rcases List.mem_cons.mp hf with rfl | hfs
      · by_cases hmf : marks h f = true
        · show marks (foldTrace (traceCell g) (traceCell g h f).1 fs).1 f = true
          exact marks_mono_foldTrace g fs _ f (marks_mono_traceCell g h f f hmf)
        · obtain ⟨cl, hcl⟩ := lookup_of_mem_hkeys h f hfk
          have hclm : cl.marked = false := by
            cases hb : cl.marked
            · rfl
            · exact absurd (by rw [marks, hcl]; exact hb) hmf
          have hdisp : f ∈ (traceCell g h f).2 :=
            traceCell_dispatches g h f cl (by omega) hcl hclm
          show marks (foldTrace (traceCell g) (traceCell g h f).1 fs).1 f = true
          apply marks_mono_foldTrace
          rw [s1]
          exact marks_markList_of_mem _ h f cl hdisp hcl
      · show marks (foldTrace (traceCell g) (traceCell g h f₀).1 fs).1 f = true
        exact Ia f hfs (by rw [hkR1]; exact hfk)
    · intro p hp cl hlkp f hf hfk
      have hp' : p ∈ (traceCell g h f₀).2 ++
          (foldTrace (traceCell g) (traceCell g h f₀).1 fs).2 := hp
      rcases List.mem_append.mp hp' with hp₁ | hp₂
      · show marks (foldTrace (traceCell g) (traceCell g h f₀).1 fs).1 f = true
        exact marks_mono_foldTrace g fs _ f
          (IH h f₀ hcnt p hp₁ cl hlkp f hf hfk)
      · have hlkp₁ : lookupCell (traceCell g h f₀).1 p =
            some { cl with
              marked := cl.marked || decide (p ∈ (traceCell g h f₀).2) } := by
          rw [s1, lookup_markList, hlkp]
          rfl
        show marks (foldTrace (traceCell g) (traceCell g h f₀).1 fs).1 f = true
        exact Ib p hp₂ _ hlkp₁ f hf (by rw [hkR1]; exact hfk)

/-- After a trace with enough fuel, every allocated field of every
dispatched cell is marked (the dispatched part of the heap is closed
under interior references). -/
theorem traceCell_closure : ∀ (fuel : Nat) (h : Heap) (c : CellId),
    unmarkedCount h + 1 ≤ fuel →
    ∀ p ∈ (traceCell fuel h c).2, ∀ cl, lookupCell h p = some cl →
      ∀ f ∈ cl.fields, f ∈ hkeys h → marks (traceCell fuel h c).1 f = true := by
  intro fuel
  induction fuel with
  | zero =>
    intro h c hcnt
    omega
  | succ g ih =>
    intro h c hcnt p hp cl hlkp f hf hfk
    cases hlk : lookupCell h c with
    | none =>
      rw [traceCell_none g h c hlk] at hp
      exact absurd hp (List.not_mem_nil p)
    | some cl₀ =>
      by_cases hm : cl₀.marked = true
      · rw [traceCell_marked g h c cl₀ hlk hm] at hp
        exact absurd hp (List.not_mem_nil p)
      · rw [traceCell_unmarked g h c cl₀ hlk hm] at hp
        rw [traceCell_unmarked g h c cl₀ hlk hm]
        have hcnt₁ :
            unmarkedCount (setMark h c true) + 1 ≤ g := by
          have := unmarkedCount_setMark_true_lt h c cl₀ hlk
            (by cases hb : cl₀.marked; rfl; exact absurd hb hm)
          omega
        obtain ⟨Fa, Fb⟩ := foldTrace_closure g ih cl₀.fields
          (setMark h c true) hcnt₁
        rcases List.mem_cons.mp hp with rfl | hp₂
        · have : cl = cl₀ := Option.some.inj (hlkp.symm.trans hlk)
          subst this
          exact Fa f hf (by rw [hkeys_setMark]; exact hfk)
        · by_cases hpc : p = c
          · subst hpc
            have : cl = cl₀ := Option.some.inj (hlkp.symm.trans hlk)
            subst this
            exact Fa f hf (by rw [hkeys_setMark]; exact hfk)
          · have hlk₁ : lookupCell (setMark h c true) p = some cl := by
              rw [lookup_setMark_ne h c p true hpc]
              exact hlkp
            exact Fb p hp₂ cl hlk₁ f hf (by rw [hkeys_setMark]; exact hfk)

theorem marks_mono_markRootsAux (fuel : Nat) (roots : List (Option CellId))
    (h : Heap) (x : CellId) (hm : marks h x = true) :
    marks (markRootsAux fuel h roots).1 x = true := by
  obtain ⟨s1, _, _⟩ := markRootsAux_spec fuel roots h
  rw [s1]
  exact marks_markList_mono _ h x hm

/-- After the mark phase's loop with enough fuel: every allocated root
is marked, and every allocated field of a dispatched cell is marked. -/
theorem markRootsAux_closure : ∀ (roots : List (Option CellId)) (fuel : Nat)
    (h : Heap), unmarkedCount h + 1 ≤ fuel →
    ((∀ r, some r ∈ roots → r ∈ hkeys h →
        marks (markRootsAux fuel h roots).1 r = true) ∧
     (∀ p ∈ (markRootsAux fuel h roots).2, ∀ cl, lookupCell h p = some cl →
        ∀ f ∈ cl.fields, f ∈ hkeys h →
          marks (markRootsAux fuel h roots).1 f = true)) := by
  intro roots
  induction roots with
  | nil =>
    intro fuel h _
    refine ⟨?_, ?_⟩
    · intro r hr
      exact absurd hr (List.not_mem_nil _)
    · intro p hp
      exact absurd hp (List.not_mem_nil p)
  | cons r₀ rs ih =>
    intro fuel h hcnt
    cases r₀ with
    | none =>
      obtain ⟨Ra, Rb⟩ := ih fuel h hcnt
      refine ⟨?_, ?_⟩
      · intro r hr hrk
        rcases List.mem_cons.mp hr with he | hr'
        · cases he
        · exact Ra r hr' hrk
      · intro p hp cl hlkp f hf hfk
        exact Rb p hp cl hlkp f hf hfk
    | some c =>
      obtain ⟨sT, _, _⟩ := traceCell_spec fuel h c
      have hkT : hkeys (traceCell fuel h c).1 = hkeys h := by
        rw [sT, hkeys_markList]
      have hcntT : unmarkedCount (traceCell fuel h c).1 + 1 ≤ fuel := by
        rw [sT]
        have := unmarkedCount_markList_le (traceCell fuel h c).2 h
        omega
      obtain ⟨Ra, Rb⟩ := ih fuel (traceCell fuel h c).1 hcntT
      refine ⟨?_, ?_⟩
      · intro r hr hrk
        show marks (markRootsAux fuel (traceCell fuel h c).1 rs).1 r = true
        rcases List.mem_cons.mp hr with he | hr'
        · obtain rfl : r = c := Option.some.inj he
          apply marks_mono_markRootsAux
          by_cases hm : marks h r = true
          · exact marks_mono_traceCell fuel h r r hm
          · obtain ⟨cl, hcl⟩ := lookup_of_mem_hkeys h r hrk
            have hclm : cl.marked = false := by
              cases hb : cl.marked
              · rfl
              · exact absurd (by rw [marks, hcl]; exact hb) hm
            have hdisp : r ∈ (traceCell fuel h r).2 :=
              traceCell_dispatches fuel h r cl (by omega) hcl hclm
            rw [sT]
            exact marks_markList_of_mem _ h r cl hdisp hcl
        · exact Ra r hr' (by rw [hkT]; exact hrk)
      · intro p hp cl hlkp f hf hfk
        have hp' : p ∈ (traceCell fuel h c).2 ++
            (markRootsAux fuel (traceCell fuel h c).1 rs).2 := hp
        show marks (markRootsAux fuel (traceCell fuel h c).1 rs).1 f = true
        rcases List.mem_append.mp hp' with hp₁ | hp₂
        · exact marks_mono_markRootsAux fuel rs _ f
            (traceCell_closure fuel h c hcnt p hp₁ cl hlkp f hf hfk)
        · have hlkp₁ : lookupCell (traceCell fuel h c).1 p =
              some { cl with
                marked := cl.marked || decide (p ∈ (traceCell fuel h c).2) } := by
            rw [sT, lookup_markList, hlkp]
            rfl
          exact Rb p hp₂ _ hlkp₁ f hf (by rw [hkT]; exact hfk)

/-- Completeness of the mark phase: on an unmarked heap, every
allocated cell reachable from a non-null root ends up marked. -/
theorem markRoots_marks_reachable (h : Heap) (roots : List (Option CellId))
    (S : List CellId) (hnm : ∀ x, marks h x = false) :
    ∀ (r c : CellId), ReachFrom h S r c → some r ∈ roots → c ∈ hkeys h →
      marks (markRoots h roots).1 c = true := by
  have hcnt : unmarkedCount h + 1 ≤ h.length + 2 := by
    have := unmarkedCount_le_length h
    omega
  obtain ⟨Ra, Rb⟩ := markRootsAux_closure roots (h.length + 2) h hcnt
  obtain ⟨s1, _, _⟩ := markRootsAux_spec (h.length + 2) roots h
  intro r c hrf
  induction hrf with
  | refl =>
    intro hroot hc
    exact Ra r hroot hc
  | step b c' cl hab hbS hlkb hfld ih =>
    intro hroot hc
    have hbk : b ∈ hkeys h := mem_hkeys_of_lookup h b cl hlkb
    have hbm : marks (markRootsAux (h.length + 2) h roots).1 b = true :=
      ih hroot hbk
    have hbL : b ∈ (markRootsAux (h.length + 2) h roots).2 := by
      apply mem_of_marks_markList _ h b _ (hnm b)
      rw [← s1]
      exact hbm
    exact Rb b hbL cl hlkb c' hfld hc

theorem reachFrom_mono (h : Heap) (S S' : List CellId)
    (hss : ∀ x ∈ S, x ∈ S') (a c : CellId) (hr : ReachFrom h S a c) :
    ReachFrom h S' a c := by
  induction hr with
  | refl => exact ReachFrom.refl _
  | step b c' cl hab hbS hlkb hfld ih =>
    exact ReachFrom.step _ b c' cl ih (hss b hbS) hlkb hfld

theorem reachFrom_congr (h h' : Heap) (S : List CellId)
    (hf : ∀ b ∈ S, (lookupCell h' b).map Cell.fields =
      (lookupCell h b).map Cell.fields)
    (a c : CellId) (hr : ReachFrom h S a c) : ReachFrom h' S a c := by
  induction hr with
  | refl => exact ReachFrom.refl _
  | step b c' cl hab hbS hlkb hfld ih =>
    have hmap := hf b hbS
    rw [hlkb] at hmap
    cases hlk' : lookupCell h' b with
    | none =>
      rw [hlk'] at hmap
      exact Option.noConfusion hmap
    | some cl' =>
      rw [hlk'] at hmap
      have hfe : cl'.fields = cl.fields := Option.some.inj hmap
      exact ReachFrom.step _ b c' cl' ih hbS hlk' (by rw [hfe]; exact hfld)

theorem reachFrom_trans (h : Heap) (S : List CellId) (a b c : CellId)
    (h₁ : ReachFrom h S a b) (h₂ : ReachFrom h S b c) : ReachFrom h S a c := by
  induction h₂ with
  | refl => exact h₁
  | step b' c' cl hb hbS hlk hfld ih =>
    exact ReachFrom.step _ b' c' cl ih hbS hlk hfld

/-- Soundness of trace folding: everything in the fold's dispatch log
is reachable from one of the folded fields, through dispatched cells. -/
theorem foldTrace_sound (g : Nat)
    (IH : ∀ (h : Heap) (c p : CellId), p ∈ (traceCell g h c).2 →
      ReachFrom h (traceCell g h c).2 c p) :
    ∀ (fs : List CellId) (h : Heap) (p : CellId),
      p ∈ (foldTrace (traceCell g) h fs).2 →
      ∃ f ∈ fs, ReachFrom h (foldTrace (traceCell g) h fs).2 f p := by
  intro fs
  induction fs with
  | nil =>
    intro h p hp
    exact absurd hp (List.not_mem_nil p)
  | cons f₀ fs ihf =>
    intro h p hp
    have hp' : p ∈ (traceCell g h f₀).2 ++
        (foldTrace (traceCell g) (traceCell g h f₀).1 fs).2 := hp
    obtain ⟨s1, _, _⟩ := traceCell_spec g h f₀
    rcases List.mem_append.mp hp' with hp₁ | hp₂
    · refine ⟨f₀, List.mem_cons_self _ _, ?_⟩
      exact reachFrom_mono h _ _
        (fun x hx => show x ∈ (traceCell g h f₀).2 ++ _ from
          List.mem_append.mpr (Or.inl hx)) f₀ p (IH h f₀ p hp₁)
    · obtain ⟨f, hf, hrf⟩ := ihf (traceCell g h f₀).1 p hp₂
      have hcongr : ∀ b, (lookupCell h b).map Cell.fields =
          (lookupCell (traceCell g h f₀).1 b).map Cell.fields := by
        intro b
        rw [s1, lookup_markList]
        cases lookupCell h b <;> rfl
      refine ⟨f, List.mem_cons_of_mem _ hf, ?_⟩
      have hrf' : ReachFrom h
          (foldTrace (traceCell g) (traceCell g h f₀).1 fs).2 f p :=
        reachFrom_congr _ h _ (fun b _ => hcongr b) f p hrf
      exact reachFrom_mono h _ _
        (fun x hx => show x ∈ (traceCell g h f₀).2 ++ _ from
          List.mem_append.mpr (Or.inr hx)) f p hrf'

/-- Soundness of `GcCell::trace`: everything in the dispatch log is
reachable from the traced cell, dereferencing only dispatched cells. -/
theorem traceCell_sound : ∀ (fuel : Nat) (h : Heap) (c p : CellId),
    p ∈ (traceCell fuel h c).2 → ReachFrom h (traceCell fuel h c).2 c p := by
  intro fuel
  induction fuel with
  | zero =>
    intro h c p hp
    exact absurd hp (List.not_mem_nil p)
  | succ g ih =>
    intro h c p hp
    cases hlk : lookupCell h c with
    | none =>
      rw [traceCell_none g h c hlk] at hp
      exact absurd hp (List.not_mem_nil p)
    | some cl =>
      by_cases hm : cl.marked = true
      · rw [traceCell_marked g h c cl hlk hm] at hp
        exact absurd hp (List.not_mem_nil p)
      · rw [traceCell_unmarked g h c cl hlk hm] at hp ⊢
        rcases List.mem_cons.mp hp with rfl | hp₂
        · exact ReachFrom.refl _
        · obtain ⟨f, hf, hrf⟩ := foldTrace_sound g ih cl.fields
            (setMark h c true) p hp₂
          have hcongr : ∀ b, (lookupCell h b).map Cell.fields =
              (lookupCell (setMark h c true) b).map Cell.fields := by
            intro b
            by_cases hbc : b = c
            · subst hbc
              rw [lookup_setMark_self, hlk]
              rfl
            · rw [lookup_setMark_ne h c b true hbc]
          have hrf' : ReachFrom h
              (foldTrace (traceCell g) (setMark h c true) cl.fields).2 f p :=
            reachFrom_congr _ h _ (fun b _ => hcongr b) f p hrf
          have hcf : ReachFrom h
              (c :: (foldTrace (traceCell g) (setMark h c true) cl.fields).2)
              c f :=
            ReachFrom.step c c f cl (ReachFrom.refl c)
              (List.mem_cons_self _ _) hlk hf
          exact reachFrom_trans h _ c f p hcf
            (reachFrom_mono h _ _ (fun x hx => List.mem_cons_of_mem c hx)
              f p hrf')

/-- Soundness of the mark phase's loop: everything dispatched is
reachable from a non-null root slot, dereferencing only dispatched
cells. -/
theorem markRootsAux_sound : ∀ (roots : List (Option CellId)) (fuel : Nat)
    (h : Heap) (p : CellId), p ∈ (markRootsAux fuel h roots).2 →
    ∃ r, some r ∈ roots ∧ ReachFrom h (markRootsAux fuel h roots).2 r p := by
  intro roots
  induction roots with
  | nil =>
    intro fuel h p hp
    exact absurd hp (List.not_mem_nil p)
  | cons r₀ rs ih =>
    intro fuel h p hp
    cases r₀ with
    | none =>
      obtain ⟨r, hr, hrf⟩ := ih fuel h p hp
      exact ⟨r, List.mem_cons_of_mem _ hr, hrf⟩
    | some c =>
      have hp' : p ∈ (traceCell fuel h c).2 ++
          (markRootsAux fuel (traceCell fuel h c).1 rs).2 := hp
      obtain ⟨s1, _, _⟩ := traceCell_spec fuel h c
      rcases List.mem_append.mp hp' with hp₁ | hp₂
      · refine ⟨c, List.mem_cons_self _ _, ?_⟩
        exact reachFrom_mono h _ _
          (fun x hx => show x ∈ (traceCell fuel h c).2 ++ _ from
            List.mem_append.mpr (Or.inl hx)) c p
          (traceCell_sound fuel h c p hp₁)
      · obtain ⟨r, hr, hrf⟩ := ih fuel (traceCell fuel h c).1 p hp₂
        have hcongr : ∀ b, (lookupCell h b).map Cell.fields =
            (lookupCell (traceCell fuel h c).1 b).map Cell.fields := by
          intro b
          rw [s1, lookup_markList]
          cases lookupCell h b <;> rfl
        refine ⟨r, List.mem_cons_of_mem _ hr, ?_⟩
        have hrf' : ReachFrom h
            (markRootsAux fuel (traceCell fuel h c).1 rs).2 r p :=
          reachFrom_congr _ h _ (fun b _ => hcongr b) r p hrf
        exact reachFrom_mono h _ _
          (fun x hx => show x ∈ (traceCell fuel h c).2 ++ _ from
            List.mem_append.mpr (Or.inr hx)) r p hrf'

/-- **C8**: on a well-formed state (the heap is exactly the
duplicate-free allocation chain hanging from the head, all mark bits
clear, and the scope data's bumps point into existing blocks), two
collections in immediate succession produce the same observable state
after the second as after the first: the second run returns the very
same state — same chain contents and order, same handle blocks, same
allocator head — and frees nothing (its destructor log is empty). -/
theorem gc_idempotent (st : GcState) (l : List CellId)
    (Hchain : chainWF st.heap st.head l = true) (Hnd : l.Nodup)
    (Hkeys : hkeys st.heap = l)
    (Hunm : ∀ x ∈ hkeys st.heap, marks st.heap x = false)
    (Hb : max st.scope.tombstone.index st.scope.next.index <
      st.scope.blocks.length)
    (Htp : st.scope.tombstone.ptr ≤ BLOCK_SIZE)
    (Hnp : st.scope.next.ptr ≤ BLOCK_SIZE) :
    ∃ st₁ log₁, gcRun st = some (st₁, log₁) ∧ gcRun st₁ = some (st₁, []) := by
  have hunm' : ∀ x, marks st.heap x = false := by
    intro x
    by_cases hx : x ∈ hkeys st.heap
    · exact Hunm x hx
    · exact marks_eq_false_of_not_mem st.heap x hx
  obtain ⟨M, hM⟩ : ∃ m, markRoots st.heap (rootValues st.scope) = m := ⟨_, rfl⟩
  have hMP : markPhase st.scope st.heap = M := hM
  have m1 : M.1 = markList st.heap M.2 := by
    rw [← hM]
    exact (markRootsAux_spec (st.heap.length + 2) (rootValues st.scope)
      st.heap).1
  have m3 : ∀ x ∈ M.2, marks st.heap x = false ∧ x ∈ hkeys st.heap := by
    rw [← hM]
    exact (markRootsAux_spec (st.heap.length + 2) (rootValues st.scope)
      st.heap).2.2
  have hkeysM : hkeys M.1 = l := by
    rw [m1, hkeys_markList, Hkeys]
  have hchainM : chainWF M.1 st.head l = true := by
    rw [chainWF_congr M.1 st.heap st.head l ?_]
    · exact Hchain
    · intro x _
      rw [m1, lookup_markList]
      cases lookupCell st.heap x <;> rfl
  obtain ⟨SW, hSW⟩ : ∃ s, sweep M.1 st.head = s := ⟨_, rfl⟩
  obtain ⟨l₁, hl₁⟩ : ∃ x, liveIds M.1 l = x := ⟨_, rfl⟩
  have hsw := sweep_frees_exactly_unmarked M.1 st.head l hchainM Hnd
  rw [hSW, hl₁] at hsw
  obtain ⟨A₁, _, G₁, F₁, E₁, H₁, K₁⟩ := hsw
  have hrun1 := gcRun_some st Hb
  rw [hMP, hSW] at hrun1
  obtain ⟨st₁, hst₁⟩ : ∃ s, ({ st with
      scope := { st.scope with
        blocks := st.scope.blocks.take
          (max st.scope.tombstone.index st.scope.next.index + 1) },
      heap := SW.1, head := SW.2.1 } : GcState) = s := ⟨_, rfl⟩
  rw [hst₁] at hrun1
  have h1 : st₁.scope.tombstone = st.scope.tombstone := by rw [← hst₁]
  have h2 : st₁.scope.next = st.scope.next := by rw [← hst₁]
  have h3 : st₁.scope.blocks = st.scope.blocks.take
      (max st.scope.tombstone.index st.scope.next.index + 1) := by
    rw [← hst₁]
  have hh : st₁.heap = SW.1 := by rw [← hst₁]
  have hd : st₁.head = SW.2.1 := by rw [← hst₁]
  have hb₁ : max st₁.scope.tombstone.index st₁.scope.next.index <
      st₁.scope.blocks.length := by
    rw [h1, h2, h3, List.length_take]
    omega
  have hrv : rootValues st₁.scope = rootValues st.scope := by
    rw [show st₁.scope = { st.scope with
        blocks := st.scope.blocks.take
          (max st.scope.tombstone.index st.scope.next.index + 1) } from by
      rw [← hst₁]]
    exact rootValues_take st.scope (scopeIterEnd_snd_le st.scope Htp Hnp)
  obtain ⟨M₂, hM₂⟩ : ∃ m, markRoots SW.1 (rootValues st.scope) = m := ⟨_, rfl⟩
  have hMP₂ : markPhase st₁.scope st₁.heap = M₂ := by
    show markRoots st₁.heap (rootValues st₁.scope) = M₂
    rw [hh, hrv]
    exact hM₂
  have m1₂ : M₂.1 = markList SW.1 M₂.2 := by
    rw [← hM₂]
    exact (markRootsAux_spec (SW.1.length + 2) (rootValues st.scope) SW.1).1
  have hkeysSW : hkeys SW.1 = l₁ := by
    rw [K₁, hkeysM, ← hl₁]
    show l.filter _ = l.filter _
    apply List.filter_congr
    intro x hx
    by_cases hm : marks M.1 x = true
    · have hnd : x ∉ deadIds M.1 l := by
        intro hmem
        have hmm := (List.mem_filter.mp hmem).2
        rw [hm] at hmm
        simp at hmm
      simp [hnd, hm]
    · have hmf : marks M.1 x = false := by
        cases hb : marks M.1 x
        · rfl
        · exact absurd hb hm
      have hmd : x ∈ deadIds M.1 l := by
        apply List.mem_filter.mpr
        refine ⟨hx, ?_⟩
        rw [hmf]
        rfl
      simp [hmd, hmf]
  have hkeysM₂ : hkeys M₂.1 = l₁ := by
    rw [m1₂, hkeys_markList, hkeysSW]
  have hunm₂ : ∀ x, marks SW.1 x = false := by
    intro x
    by_cases hx : x ∈ hkeys SW.1
    · rw [hkeysSW] at hx
      obtain ⟨cl, cl', _, hcl', _, hm'⟩ := F₁ x hx
      rw [marks, hcl']
      exact hm'
    · exact marks_eq_false_of_not_mem _ _ hx
  have hfldtr : ∀ b ∈ M.2, (lookupCell SW.1 b).map Cell.fields =
      (lookupCell st.heap b).map Cell.fields := by
    intro b hb
    obtain ⟨hbm, hbk⟩ := m3 b hb
    obtain ⟨cl₀, hcl₀⟩ := lookup_of_mem_hkeys st.heap b hbk
    have hmarked : marks M.1 b = true := by
      rw [m1]
      exact marks_markList_of_mem M.2 st.heap b cl₀ hb hcl₀
    have hbl₁ : b ∈ l₁ := by
      rw [← hl₁]
      apply List.mem_filter.mpr
      exact ⟨by rw [← Hkeys]; exact hbk, hmarked⟩
    obtain ⟨cl, cl', hclM, hclSW, hfe, _⟩ := F₁ b hbl₁
    have hMb : lookupCell M.1 b =
        some { cl₀ with marked := cl₀.marked || decide (b ∈ M.2) } := by
      rw [m1, lookup_markList, hcl₀]
      rfl
    have hcl_eq : cl =
        { cl₀ with marked := cl₀.marked || decide (b ∈ M.2) } :=
      Option.some.inj (hclM.symm.trans hMb)
    rw [hclSW, hcl₀]
    show some cl'.fields = some cl₀.fields
    rw [hfe, hcl_eq]
  have hreach : ∀ x ∈ l₁, marks M₂.1 x = true := by
    intro x hx
    have hx' : x ∈ l ∧ marks M.1 x = true := by
      rw [← hl₁] at hx
      exact ⟨(List.mem_filter.mp hx).1, (List.mem_filter.mp hx).2⟩
    have hxL : x ∈ M.2 := by
      apply mem_of_marks_markList M.2 st.heap x ?_ (hunm' x)
      rw [← m1]
      exact hx'.2
    have hxL' : x ∈ (markRootsAux (st.heap.length + 2) st.heap
        (rootValues st.scope)).2 := by
      have hxL2 : x ∈ (markRoots st.heap (rootValues st.scope)).2 := by
        rw [hM]
        exact hxL
      exact hxL2
    obtain ⟨r, hr, hrf⟩ := markRootsAux_sound (rootValues st.scope)
      (st.heap.length + 2) st.heap x hxL'
    have hrf' : ReachFrom st.heap M.2 r x := by
      rw [← hM]
      exact hrf
    have hrf₂ : ReachFrom SW.1 M.2 r x :=
      reachFrom_congr st.heap SW.1 M.2 hfldtr r x hrf'
    have hmark := markRoots_marks_reachable SW.1 (rootValues st.scope) M.2
      hunm₂ r x hrf₂ hr (by rw [hkeysSW]; exact hx)
    rw [hM₂] at hmark
    exact hmark
  have hchain₂ : chainWF M₂.1 st₁.head l₁ = true := by
    rw [hd, H₁]
    rw [chainWF_congr M₂.1 SW.1 l₁.head? l₁ ?_]
    · exact E₁
    · intro x _
      rw [m1₂, lookup_markList]
      cases lookupCell SW.1 x <;> rfl
  have hnd₁ : l₁.Nodup := by
    rw [← hl₁]
    exact List.Nodup.filter _ Hnd
  obtain ⟨SW₂, hSW₂⟩ : ∃ s, sweep M₂.1 st₁.head = s := ⟨_, rfl⟩
  have hsw₂ := sweep_frees_exactly_unmarked M₂.1 st₁.head l₁ hchain₂ hnd₁
  rw [hSW₂] at hsw₂
  obtain ⟨A₂, _, G₂, F₂, E₂, H₂, K₂⟩ := hsw₂
  have hlive₂ : liveIds M₂.1 l₁ = l₁ := by
    show l₁.filter _ = l₁
    apply List.filter_eq_self.mpr
    intro x hx
    exact hreach x hx
  have hdead₂ : deadIds M₂.1 l₁ = [] := by
    show l₁.filter _ = []
    apply List.filter_eq_nil_iff.mpr
    intro x hx
    rw [hreach x hx]
    simp
  rw [hlive₂] at F₂ E₂ H₂
  have hrun2 := gcRun_some st₁ hb₁
  rw [hMP₂, hSW₂] at hrun2
  have hlog : SW₂.2.2 = [] := by
    rw [A₂, hdead₂]
  have hhead₂ : SW₂.2.1 = l₁.head? := H₂
  have hkeysSW₂ : hkeys SW₂.1 = l₁ := by
    rw [K₂, hkeysM₂, hdead₂]
    simp
  have hheap : SW₂.1 = SW.1 := by
    apply heap_ext
    · rw [hkeysSW₂, hkeysSW]
    · rw [hkeysSW₂]
      exact hnd₁
    · intro c
      by_cases hc : c ∈ l₁
      · obtain ⟨cl, cl', hclM₂, hclSW₂, hfe₂, hm₂⟩ := F₂ c hc
        obtain ⟨cl₁, hcl₁⟩ := lookup_of_mem_hkeys SW.1 c
          (by rw [hkeysSW]; exact hc)
        have hM₂c : lookupCell M₂.1 c =
            some { cl₁ with marked := cl₁.marked || decide (c ∈ M₂.2) } := by
          rw [m1₂, lookup_markList, hcl₁]
          rfl
        have hcl_eq : cl =
            { cl₁ with marked := cl₁.marked || decide (c ∈ M₂.2) } :=
          Option.some.inj (hclM₂.symm.trans hM₂c)
        have hprev : cl'.prev = cl₁.prev :=
          chainWF_pins l₁ SW₂.1 SW.1 l₁.head? E₂ E₁ c hc cl' cl₁ hclSW₂ hcl₁
        rw [hclSW₂, hcl₁]
        congr 1
        apply cell_ext
        · exact hprev
        · rw [hm₂]
          have hx := hunm₂ c
          rw [marks, hcl₁] at hx
          exact hx.symm
        · rw [hfe₂, hcl_eq]
      · rw [lookup_eq_none_of_not_mem _ _
            (by rw [hkeysSW₂]; exact hc : c ∉ hkeys SW₂.1),
          lookup_eq_none_of_not_mem _ _
            (by rw [hkeysSW]; exact hc : c ∉ hkeys SW.1)]
  have hscope : ({ st₁.scope with
      blocks := st₁.scope.blocks.take
        (max st₁.scope.tombstone.index st₁.scope.next.index + 1) } :
      ScopeData) = st₁.scope := by
    apply scopeData_ext
    · rfl
    · rfl
    · rfl
    · rfl
    · show st₁.scope.blocks.take _ = st₁.scope.blocks
      rw [h1, h2, h3, List.take_take, Nat.min_self]
  have hstate : ({ st₁ with
      scope := { st₁.scope with
        blocks := st₁.scope.blocks.take
          (max st₁.scope.tombstone.index st₁.scope.next.index + 1) },
      heap := SW₂.1, head := SW₂.2.1 } : GcState) = st₁ := by
    apply gcState_ext
    · exact hscope
    · show SW₂.1 = st₁.heap
      rw [hheap]
      exact hh.symm
    · show SW₂.2.1 = st₁.head
      rw [hhead₂, hd, H₁]
    · rfl
  refine ⟨st₁, SW.2.2, hrun1, ?_⟩
  rw [hrun2, hstate, hlog]

set_option maxRecDepth 10000 in
/-- Witness for C8: a one-cell chain rooted from handle slot (0,1). -/
theorem gc_idempotent_witness :
    (chainWF exC8.heap exC8.head [1] = true ∧ ([1] : List CellId).Nodup ∧
     hkeys exC8.heap = [1] ∧
     (∀ x ∈ hkeys exC8.heap, marks exC8.heap x = false) ∧
     max exC8.scope.tombstone.index exC8.scope.next.index <
       exC8.scope.blocks.length ∧
     exC8.scope.tombstone.ptr ≤ BLOCK_SIZE ∧
     exC8.scope.next.ptr ≤ BLOCK_SIZE) ∧
    (∃ st₁ log₁, gcRun exC8 = some (st₁, log₁) ∧
      gcRun st₁ = some (st₁, [])) :=
  ⟨⟨by decide, by decide, by decide, by decide, by decide, by decide,
      by decide⟩,
    gc_idempotent exC8 [1] (by decide) (by decide) (by decide) (by decide)
      (by decide) (by decide) (by decide)⟩

end Gc
